import Mathlib

set_option maxHeartbeats 1000000

/-!
Verification of the request/response translation pipeline of the
stable-diffusion.cpp server client (examples/server/client.py).

Strings are modelled as lists of characters (`Str`).  The embedding follows
the Python source: `save_images` path sequencing, `build_openai_payload`
encoding, `decode_openai_response` decoding, and the output-format inference
of `parse_arguments`.
-/

abbrev Str := List Char

/-- Numeric value of a decimal digit string (as Python reads a width field
such as the `03` of `%03d`); also the value parsed back from a decimal
rendering. -/
def strVal (s : Str) : Nat := s.foldl (fun a c => 10 * a + (c.toNat - 48)) 0

/-- Fueled decimal rendering of a positive natural number, most significant
digit first.  Fuel is structural so the kernel can evaluate it. -/
def natToStrAux : Nat → Nat → Str
  | 0, _ => []
  | _ + 1, 0 => []
  | fuel + 1, n + 1 => natToStrAux fuel ((n + 1) / 10) ++ [Char.ofNat (48 + (n + 1) % 10)]

/-- Decimal rendering of a natural number, as Python `str` renders a
non-negative int. -/
def natToStr (n : Nat) : Str := if n = 0 then ['0'] else natToStrAux n n

/-- Decimal rendering of an integer, as Python `str` renders an int. -/
def intToStr (i : Int) : Str := if i < 0 then '-' :: natToStr i.natAbs else natToStr i.natAbs

theorem strVal_nil : strVal [] = 0 := rfl

theorem strVal_snoc (l : Str) (c : Char) :
    strVal (l ++ [c]) = 10 * strVal l + (c.toNat - 48) := by
  simp [strVal, List.foldl_append]

theorem digit_char_toNat : ∀ r, r < 10 → (Char.ofNat (48 + r)).toNat = 48 + r := by decide

theorem natToStrAux_zero : ∀ fuel, natToStrAux fuel 0 = [] := by
  intro fuel; cases fuel <;> rfl

theorem natToStrAux_succ (fuel m : Nat) :
    natToStrAux (fuel + 1) (m + 1) =
      natToStrAux fuel ((m + 1) / 10) ++ [Char.ofNat (48 + (m + 1) % 10)] := rfl

theorem strVal_natToStrAux : ∀ fuel n, n ≤ fuel → strVal (natToStrAux fuel n) = n := by
  intro fuel
  induction fuel with
  | zero => intro n hn; interval_cases n; rfl
  | succ fuel ih =>
    intro n hn
    match n with
    | 0 => rw [natToStrAux_zero]; rfl
    | m + 1 =>
      have hd : (m + 1) / 10 ≤ fuel := by
        have := Nat.div_lt_self (Nat.succ_pos m) (show 1 < 10 by omega)
        omega
      rw [natToStrAux_succ, strVal_snoc, digit_char_toNat _ (Nat.mod_lt _ (by omega)), ih _ hd]
      have := Nat.div_add_mod (m + 1) 10
      omega

theorem strVal_natToStr (n : Nat) : strVal (natToStr n) = n := by
  unfold natToStr
  by_cases h : n = 0
  · simp [h]; rfl
  · rw [if_neg h]; exact strVal_natToStrAux n n le_rfl

theorem natToStr_injective : Function.Injective natToStr := by
  intro a b h
  have := strVal_natToStr a
  rw [h, strVal_natToStr] at this
  omega

theorem natToStrAux_chars : ∀ fuel n c, c ∈ natToStrAux fuel n → 48 ≤ c.toNat ∧ c.toNat ≤ 57 := by
  intro fuel
  induction fuel with
  | zero => intro n c hc; simp [natToStrAux] at hc
  | succ fuel ih =>
    intro n c hc
    match n with
    | 0 => simp [natToStrAux] at hc
    | m + 1 =>
      rw [natToStrAux] at hc
      rcases List.mem_append.mp hc with h | h
      · exact ih _ _ h
      · have hr : (m + 1) % 10 < 10 := Nat.mod_lt _ (by omega)
        have := digit_char_toNat _ hr
        simp only [List.mem_singleton] at h
        subst h
        omega

theorem natToStr_chars (n : Nat) (c : Char) (hc : c ∈ natToStr n) :
    48 ≤ c.toNat ∧ c.toNat ≤ 57 := by
  unfold natToStr at hc
  by_cases h : n = 0
  · rw [if_pos h] at hc
    simp only [List.mem_singleton] at hc
    subst hc; decide
  · rw [if_neg h] at hc
    exact natToStrAux_chars n n c hc

theorem natToStrAux_ne_nil : ∀ fuel n, 0 < n → n ≤ fuel → natToStrAux fuel n ≠ [] := by
  intro fuel n h1 h2
  match fuel, n with
  | 0, n => omega
  | fuel + 1, 0 => omega
  | fuel + 1, m + 1 => rw [natToStrAux_succ]; simp

theorem natToStr_ne_nil (n : Nat) : natToStr n ≠ [] := by
  unfold natToStr
  by_cases h : n = 0
  · simp [h]
  · rw [if_neg h]
    exact natToStrAux_ne_nil n n (Nat.pos_of_ne_zero h) le_rfl

theorem natToStrAux_head_ne_zero :
    ∀ fuel n, 0 < n → n ≤ fuel → (natToStrAux fuel n).head? ≠ some '0' := by
  intro fuel
  induction fuel with
  | zero => intro n h1 h2; omega
  | succ fuel ih =>
    intro n h1 h2
    match n with
    | m + 1 =>
      by_cases hq : (m + 1) / 10 = 0
      · have hsmall : m + 1 < 10 := by
          rcases Nat.lt_or_ge (m + 1) 10 with h | h
          · exact h
          · exact absurd hq (by have := Nat.one_le_div_iff (by omega : 0 < 10) |>.mpr h; omega)
        have hm : (m + 1) % 10 = m + 1 := Nat.mod_eq_of_lt hsmall
        rw [natToStrAux_succ, hq, natToStrAux_zero, hm, List.nil_append, List.head?_cons]
        intro hcontra
        have hc : Char.ofNat (48 + (m + 1)) = '0' := Option.some_inj.mp hcontra
        have h48 := digit_char_toNat (m + 1) hsmall
        have h0 : ('0' : Char).toNat = 48 := by decide
        rw [hc, h0] at h48
        omega
      · have hne : natToStrAux fuel ((m + 1) / 10) ≠ [] :=
          natToStrAux_ne_nil fuel _ (Nat.pos_of_ne_zero hq)
            (by have := Nat.div_lt_self (Nat.succ_pos m) (by omega : 1 < 10); omega)
        rw [natToStrAux_succ, List.head?_append_of_ne_nil _ hne]
        exact ih _ (Nat.pos_of_ne_zero hq)
          (by have := Nat.div_lt_self (Nat.succ_pos m) (by omega : 1 < 10); omega)

theorem natToStr_head_ne_zero (n : Nat) (h : 0 < n) : (natToStr n).head? ≠ some '0' := by
  unfold natToStr
  rw [if_neg (by omega)]
  exact natToStrAux_head_ne_zero n n h le_rfl

example : natToStr 0 = ['0'] := by decide
example : natToStr 207 = ['2', '0', '7'] := by decide
example : intToStr (-35) = ['-', '3', '5'] := by decide

/-- Part of the path after the last separator (the `tail` of Python
`os.path.split`). -/
def baseName (p : Str) : Str := (p.reverse.takeWhile (fun c => c ≠ '/')).reverse

/-- Reversed part of the path up to and including the last separator. -/
def revHead (p : Str) : Str := p.reverse.dropWhile (fun c => c ≠ '/')

/-- Directory part of Python `os.path.split`: the head with trailing
separators stripped unless it consists only of separators. -/
def dirName (p : Str) : Str :=
  let rh := revHead p
  if rh ≠ [] ∧ rh.any (fun c => c ≠ '/') then (rh.dropWhile (fun c => c = '/')).reverse
  else rh.reverse

/-- Python `os.path.split`. -/
def splitPath (p : Str) : Str × Str := (dirName p, baseName p)

/-- Split a separator-free name into root and extension, following Python
`os.path.splitext`: the extension starts at the last dot, provided some
earlier character of the name is not a dot. -/
def extSplitBase (f : Str) : Str × Str :=
  let rev := f.reverse
  let revSuf := rev.takeWhile (fun c => c ≠ '.')
  let revPre := rev.dropWhile (fun c => c ≠ '.')
  if revPre.any (fun c => c ≠ '.') then ((revPre.drop 1).reverse, '.' :: revSuf.reverse)
  else (f, [])

/-- Python `os.path.splitext` on a full path: the dot search is confined to
the part after the last separator. -/
def splitext (p : Str) : Str × Str :=
  let e := (extSplitBase (baseName p)).2
  (p.take (p.length - e.length), e)

/-- Leftmost match of the regular expression pattern of a printf-style
decimal placeholder inside the filename, as searched by
`re.search(r'%\d*d', filename)` in `save_images`.  Returns the literal part
before the match, the width digits of the match, and the literal part after
the match. -/
def findSpec : Str → Option (Str × Str × Str)
  | [] => none
  | c :: rest =>
    if c = '%' then
      let rest2 := rest.dropWhile Char.isDigit
      if rest2.head? = some 'd' then some ([], rest.takeWhile Char.isDigit, rest2.tail)
      else (findSpec rest).map (fun r => (c :: r.1, r.2.1, r.2.2))
    else (findSpec rest).map (fun r => (c :: r.1, r.2.1, r.2.2))

/-- Python `os.path.join` for a two-component join where the second
component is a bare filename. -/
def joinPath (d f : Str) : Str :=
  if f.head? = some '/' then f
  else if d = [] then f
  else if d.getLast? = some '/' then d ++ f
  else d ++ '/' :: f

/-- Python `%`-formatting of a natural number through the matched specifier
`%{ds}d`: a leading `0` in the width digits selects zero padding, otherwise
the number is padded with spaces up to the width. -/
def formatSpec (ds : Str) (n : Nat) : Str :=
  let s := natToStr n
  List.replicate (strVal ds - s.length) (if ds.head? = some '0' then '0' else ' ') ++ s

/-- Output paths computed by `save_images` for `n` images written to the
template `output` with optional starting index `beginIdx`
(`util_opts.get("output_begin_idx")`).  Mirrors client.py lines 182-214. -/
def savePaths (output : Str) (beginIdx : Option Nat) (n : Nat) : List Str :=
  let dirname := dirName output
  let filename := baseName output
  match findSpec filename with
  | some (pre, ds, suf) =>
    let start := beginIdx.getD 0
    (List.range n).map (fun i => joinPath dirname (pre ++ formatSpec ds (i + start) ++ suf))
  | none =>
    let start := beginIdx.getD 1
    let stem := (extSplitBase filename).1
    let ext := (extSplitBase filename).2
    (List.range n).map (fun i =>
      if i = 0 then output
      else joinPath dirname (stem ++ '_' :: natToStr (i + start) ++ ext))

example : savePaths ("out.png".toList) none 2 = [("out.png").toList, ("out_2.png").toList] := by decide
example : savePaths ("out_%03d.png".toList) none 3 =
    [("out_000.png").toList, ("out_001.png").toList, ("out_002.png").toList] := by decide
example : savePaths ("./output.png".toList) none 2 =
    [("./output.png").toList, ("./output_2.png").toList] := by decide
example : savePaths ("imgs/f_%d.jpg".toList) (some 5) 2 =
    [("imgs/f_5.jpg").toList, ("imgs/f_6.jpg").toList] := by decide
example : splitext ("./photo.JPG".toList) = (("./photo").toList, (".JPG").toList) := by decide
example : splitext ("d/.bashrc".toList) = (("d/.bashrc").toList, []) := by decide

theorem head?_mem {l : List Char} {c : Char} (h : l.head? = some c) : c ∈ l := by
  cases l with
  | nil => simp at h
  | cons a t =>
    simp only [List.head?_cons, Option.some_inj] at h
    subst h
    exact List.mem_cons_self _ _

theorem dropWhile_cons_prop {P : Char → Bool} :
    ∀ (l : List Char) (c : Char) (t : List Char), l.dropWhile P = c :: t → P c = false := by
  intro l
  induction l with
  | nil => intro c t h; simp [List.dropWhile] at h
  | cons a as ih =>
    intro c t h
    rw [List.dropWhile_cons] at h
    by_cases hp : P a
    · rw [if_pos hp] at h; exact ih _ _ h
    · rw [if_neg hp] at h
      rw [List.cons.injEq] at h
      obtain ⟨h1, h2⟩ := h
      subst h1
      simpa using hp

theorem baseName_no_slash (p : Str) (c : Char) (hc : c ∈ baseName p) : c ≠ '/' := by
  unfold baseName at hc
  rw [List.mem_reverse] at hc
  have := List.mem_takeWhile_imp hc
  simpa using this

theorem revHead_baseName (p : Str) : (revHead p).reverse ++ baseName p = p := by
  unfold revHead baseName
  rw [← List.reverse_append, List.takeWhile_append_dropWhile, List.reverse_reverse]

theorem extSplitBase_append (f : Str) : (extSplitBase f).1 ++ (extSplitBase f).2 = f := by
  unfold extSplitBase
  by_cases h : (f.reverse.dropWhile (fun c => c ≠ '.')).any (fun c => c ≠ '.')
  · simp only [h, if_true]
    cases hdw : f.reverse.dropWhile (fun c => c ≠ '.') with
    | nil => rw [hdw] at h; simp at h
    | cons a t =>
      have ha : a = '.' := by
        have := dropWhile_cons_prop _ _ _ hdw
        simpa using this
      have hf : f.reverse.takeWhile (fun c => c ≠ '.') ++ (a :: t) = f.reverse := by
        rw [← hdw, List.takeWhile_append_dropWhile]
      subst ha
      simp only [List.drop_one, List.tail_cons]
      have : f = t.reverse ++ '.' :: (f.reverse.takeWhile (fun c => c ≠ '.')).reverse := by
        conv_lhs => rw [← List.reverse_reverse f, ← hf]
        rw [List.reverse_append, List.reverse_cons, List.append_assoc]
        rfl
      rw [← this]
  · simp only [h, if_false]
    simp

theorem findSpec_eq :
    ∀ (f pre ds suf : Str), findSpec f = some (pre, ds, suf) →
      f = pre ++ '%' :: (ds ++ 'd' :: suf) := by
  intro f
  induction f with
  | nil => intro pre ds suf h; simp [findSpec] at h
  | cons c rest ih =>
    intro pre ds suf h
    rw [findSpec] at h
    by_cases hc : c = '%'
    · rw [if_pos hc] at h
      by_cases hd : (rest.dropWhile Char.isDigit).head? = some 'd'
      · rw [if_pos hd] at h
        obtain ⟨t, ht⟩ : ∃ t, rest.dropWhile Char.isDigit = 'd' :: t := by
          cases hdw : rest.dropWhile Char.isDigit with
          | nil => rw [hdw] at hd; simp at hd
          | cons a u =>
            rw [hdw] at hd
            simp only [List.head?_cons, Option.some_inj] at hd
            exact ⟨u, by rw [hd]⟩
        rw [Option.some_inj, Prod.mk.injEq, Prod.mk.injEq] at h
        obtain ⟨h1, h2, h3⟩ := h
        subst h1 h2
        rw [← h3, ht, List.tail_cons, hc, List.nil_append]
        have : rest.takeWhile Char.isDigit ++ ('d' :: t) = rest := by
          rw [← ht, List.takeWhile_append_dropWhile]
        rw [this]
      · rw [if_neg hd] at h
        cases hr : findSpec rest with
        | none => rw [hr] at h; simp at h
        | some r =>
          obtain ⟨p1, d1, s1⟩ := r
          rw [hr] at h
          simp only [Option.map_some', Option.some_inj, Prod.mk.injEq] at h
          obtain ⟨h1, h2, h3⟩ := h
          subst h2 h3
          rw [← h1, List.cons_append]
          rw [ih p1 d1 s1 hr]
    · rw [if_neg hc] at h
      cases hr : findSpec rest with
      | none => rw [hr] at h; simp at h
      | some r =>
        obtain ⟨p1, d1, s1⟩ := r
        rw [hr] at h
        simp only [Option.map_some', Option.some_inj, Prod.mk.injEq] at h
        obtain ⟨h1, h2, h3⟩ := h
        subst h2 h3
        rw [← h1, List.cons_append]
        rw [ih p1 d1 s1 hr]

theorem formatSpec_ne_nil (ds : Str) (n : Nat) : formatSpec ds n ≠ [] := by
  unfold formatSpec
  intro h
  rcases List.append_eq_nil.mp h with ⟨-, h2⟩
  exact natToStr_ne_nil n h2

theorem formatSpec_chars (ds : Str) (n : Nat) (c : Char) (hc : c ∈ formatSpec ds n) :
    c = '0' ∨ c = ' ' ∨ (48 ≤ c.toNat ∧ c.toNat ≤ 57) := by
  unfold formatSpec at hc
  rcases List.mem_append.mp hc with h | h
  · have := List.eq_of_mem_replicate h
    by_cases h0 : ds.head? = some '0'
    · rw [if_pos h0] at this; exact Or.inl this
    · rw [if_neg h0] at this; exact Or.inr (Or.inl this)
  · exact Or.inr (Or.inr (natToStr_chars n c h))

theorem formatSpec_no_slash (ds : Str) (n : Nat) (c : Char) (hc : c ∈ formatSpec ds n) :
    c ≠ '/' := by
  rcases formatSpec_chars ds n c hc with h | h | h
  · subst h; decide
  · subst h; decide
  · intro he
    subst he
    revert h
    decide

theorem natToStr_head_not (n : Nat) (c : Char) (hne : ∀ m : Nat, m ≤ 57 → c.toNat ≠ m) :
    (natToStr n).head? ≠ some c := by
  intro h
  have hm := head?_mem h
  have := natToStr_chars n c hm
  exact hne c.toNat this.2 rfl

theorem dropWhile_eq_self_of_head (P : Char → Bool) (c : Char) (t : List Char)
    (hc : P c = false) : (c :: t).dropWhile P = c :: t := by
  rw [List.dropWhile_cons, hc]
  simp

theorem strVal_dropWhile_pad (pad : Char) (hpad : pad = '0' ∨ pad = ' ') (n : Nat) (k : Nat) :
    strVal ((List.replicate k pad ++ natToStr n).dropWhile (fun c => c = pad)) = n := by
  rw [List.dropWhile_append]
  have hrep : (List.replicate k pad).dropWhile (fun c => c = pad) = [] := by
    rw [List.dropWhile_replicate]
    simp
  rw [hrep]
  simp only [List.isEmpty_nil, if_true]
  rcases hpad with h0 | hsp
  · subst h0
    by_cases hn : n = 0
    · subst hn
      have : natToStr 0 = ['0'] := rfl
      rw [this]
      rfl
    · have hne := natToStr_ne_nil n
      cases hh : natToStr n with
      | nil => exact absurd hh hne
      | cons c t =>
        have hhead : (natToStr n).head? = some c := by rw [hh]; rfl
        have hc0 : c ≠ '0' := by
          intro he
          subst he
          exact natToStr_head_ne_zero n (Nat.pos_of_ne_zero hn) hhead
        rw [dropWhile_eq_self_of_head (fun x => decide (x = '0')) c t (by simpa using hc0),
          ← hh, strVal_natToStr]
  · subst hsp
    have hne := natToStr_ne_nil n
    cases hh : natToStr n with
    | nil => exact absurd hh hne
    | cons c t =>
      have hcmem : c ∈ natToStr n := by rw [hh]; exact List.mem_cons_self _ _
      have hdig := natToStr_chars n c hcmem
      have hcsp : c ≠ ' ' := by
        intro he
        subst he
        revert hdig
        decide
      rw [dropWhile_eq_self_of_head (fun x => decide (x = ' ')) c t (by simpa using hcsp),
        ← hh, strVal_natToStr]

theorem formatSpec_injective (ds : Str) : Function.Injective (formatSpec ds) := by
  intro a b h
  have key : ∀ m : Nat, strVal ((formatSpec ds m).dropWhile
      (fun c => c = (if ds.head? = some '0' then '0' else ' '))) = m := by
    intro m
    unfold formatSpec
    by_cases h0 : ds.head? = some '0'
    · rw [if_pos h0]
      exact strVal_dropWhile_pad '0' (Or.inl rfl) m _
    · rw [if_neg h0]
      exact strVal_dropWhile_pad ' ' (Or.inr rfl) m _
  have ha := key a
  rw [h, key b] at ha
  omega

theorem joinPath_inj_right (d f1 f2 : Str) (h1 : f1.head? ≠ some '/')
    (h2 : f2.head? ≠ some '/') (h : joinPath d f1 = joinPath d f2) : f1 = f2 := by
  unfold joinPath at h
  rw [if_neg h1, if_neg h2] at h
  by_cases hd : d = []
  · rwa [if_pos hd, if_pos hd] at h
  · rw [if_neg hd, if_neg hd] at h
    by_cases hl : d.getLast? = some '/'
    · rw [if_pos hl, if_pos hl] at h
      exact List.append_cancel_left h
    · rw [if_neg hl, if_neg hl] at h
      have := List.append_cancel_left h
      rw [List.cons.injEq] at this
      exact this.2

theorem savePaths_placeholder (output : Str) (b : Option Nat) (n : Nat) (pre ds suf : Str)
    (h : findSpec (baseName output) = some (pre, ds, suf)) :
    savePaths output b n = (List.range n).map
      (fun k => joinPath (dirName output) (pre ++ formatSpec ds (b.getD 0 + k) ++ suf)) := by
  unfold savePaths
  dsimp only
  rw [h]
  apply List.map_congr_left
  intro a _
  rw [Nat.add_comm]

theorem savePaths_nospec (output : Str) (b : Option Nat) (n : Nat)
    (h : findSpec (baseName output) = none) :
    savePaths output b n = (List.range n).map
      (fun i => if i = 0 then output
        else joinPath (dirName output)
          ((extSplitBase (baseName output)).1 ++ '_' :: natToStr (b.getD 1 + i) ++
            (extSplitBase (baseName output)).2)) := by
  unfold savePaths
  dsimp only
  rw [h]
  apply List.map_congr_left
  intro a _
  rw [Nat.add_comm]

/-- C2: for every output path whose filename contains a printf-style decimal
placeholder, every image count `n`, and starting index (default 0 when
unset), the computed paths are the literal prefix, the format specifier
applied to `start + k`, and the literal suffix, joined onto the directory,
for `k = 0 .. n-1` in order; in particular `out_%03d.png` with the index
unset and 3 images yields `out_000.png`, `out_001.png`, `out_002.png`. -/
theorem claim_C2 (output : Str) (b : Option Nat) (n : Nat) (pre ds suf : Str)
    (h : findSpec (baseName output) = some (pre, ds, suf)) :
    savePaths output b n = (List.range n).map
      (fun k => joinPath (dirName output) (pre ++ formatSpec ds (b.getD 0 + k) ++ suf)) :=
  savePaths_placeholder output b n pre ds suf h

theorem claim_C2_witness :
    savePaths ("out_%03d.png".toList) none 3 =
      [("out_000.png").toList, ("out_001.png").toList, ("out_002.png").toList] := by
  rw [claim_C2 ("out_%03d.png".toList) none 3 ("out_".toList) ("03".toList) (".png".toList)
    (by decide)]
  decide

/-- C1 (amended): for an output path whose filename has no printf-style
decimal placeholder, image 0 is written to the exact literal supplied path,
and each image `i ≥ 1` is written to the synthesized `stem_%d.ext` name with
numeric index `start + i`, where `start` defaults to 1 (so 2 images with
path `out.png` yield `out.png` and `out_2.png`), and an explicit
starting-index override replaces that default. -/
theorem claim_C1 (output : Str) (b : Option Nat) (n : Nat)
    (h : findSpec (baseName output) = none) :
    savePaths output b n = (List.range n).map
      (fun i => if i = 0 then output
        else joinPath (dirName output)
          ((extSplitBase (baseName output)).1 ++ '_' :: natToStr (b.getD 1 + i) ++
            (extSplitBase (baseName output)).2)) :=
  savePaths_nospec output b n h

theorem claim_C1_witness :
    savePaths ("out.png".toList) none 2 = [("out.png").toList, ("out_2.png").toList] := by
  rw [claim_C1 ("out.png".toList) none 2 (by decide)]
  decide

/-- C1, counterexample to the claim as stated: with output path `out.png`,
starting index unset and 2 images, the code produces `out.png` and
`out_2.png`, not `out.png` and `out_1.png` as the claim requires. -/
theorem claim_C1_counterexample :
    savePaths ("out.png".toList) none 2 = [("out.png").toList, ("out_2.png").toList] ∧
    savePaths ("out.png".toList) none 2 ≠ [("out.png").toList, ("out_1.png").toList] := by
  constructor
  · decide
  · decide

theorem head_ne_slash_of_all (l : Str) (h : ∀ c ∈ l, c ≠ '/') : l.head? ≠ some '/' := by
  intro hh
  exact h '/' (head?_mem hh) rfl

theorem natToStr_no_slash (n : Nat) (c : Char) (hc : c ∈ natToStr n) : c ≠ '/' := by
  intro he
  subst he
  have := natToStr_chars n '/' hc
  revert this
  decide

theorem suffixed_no_slash (output : Str) (k : Nat) (c : Char)
    (hc : c ∈ (extSplitBase (baseName output)).1 ++ '_' :: natToStr k ++
      (extSplitBase (baseName output)).2) : c ≠ '/' := by
  have hse := extSplitBase_append (baseName output)
  rcases List.mem_append.mp hc with h | h
  · rcases List.mem_append.mp h with h | h
    · exact baseName_no_slash output c (by rw [← hse]; exact List.mem_append_left _ h)
    · rcases List.mem_cons.mp h with h | h
      · subst h; decide
      · exact natToStr_no_slash k c h
  · exact baseName_no_slash output c (by rw [← hse]; exact List.mem_append_right _ h)

theorem base_ne_suffixed (output : Str) (k : Nat) :
    baseName output ≠ (extSplitBase (baseName output)).1 ++ '_' :: natToStr k ++
      (extSplitBase (baseName output)).2 := by
  intro h
  have hse := congrArg List.length (extSplitBase_append (baseName output))
  have hlen := congrArg List.length h
  have hk : 0 < (natToStr k).length := List.length_pos.mpr (natToStr_ne_nil k)
  simp only [List.length_append, List.length_cons] at hse hlen
  omega

theorem revHead_head (p : Str) (c : Char) (t : Str) (h : revHead p = c :: t) : c = '/' := by
  have := dropWhile_cons_prop _ _ _ h
  simpa using this

/-- In the no-placeholder branch of `save_images`, the literal output path
never coincides with any synthesized suffixed path. -/
theorem output_ne_suffixed (output : Str) (k : Nat) :
    output ≠ joinPath (dirName output)
      ((extSplitBase (baseName output)).1 ++ '_' :: natToStr k ++
        (extSplitBase (baseName output)).2) := by
  intro heq
  have hse := extSplitBase_append (baseName output)
  have hdecomp := revHead_baseName output
  have hfhead : ((extSplitBase (baseName output)).1 ++ '_' :: natToStr k ++
      (extSplitBase (baseName output)).2).head? ≠ some '/' :=
    head_ne_slash_of_all _ (suffixed_no_slash output k)
  rw [joinPath, if_neg hfhead] at heq
  unfold dirName at heq
  by_cases hcond : revHead output ≠ [] ∧ (revHead output).any (fun c => c ≠ '/')
  · rw [if_pos hcond] at heq
    have hdwne : (revHead output).dropWhile (fun c => c = '/') ≠ [] := by
      intro hnil
      rcases List.any_eq_true.mp hcond.2 with ⟨x, hx1, hx2⟩
      have := List.dropWhile_eq_nil_iff.mp hnil x hx1
      simp at this hx2
      exact hx2 this
    cases hdw : (revHead output).dropWhile (fun c => c = '/') with
    | nil => exact hdwne hdw
    | cons a u =>
      have hane : a ≠ '/' := by
        have := dropWhile_cons_prop _ _ _ hdw
        simpa using this
      have hdrevne : ((revHead output).dropWhile (fun c => c = '/')).reverse ≠ [] := by
        rw [hdw]; simp
      have hlast : ((revHead output).dropWhile (fun c => c = '/')).reverse.getLast? ≠
          some '/' := by
        rw [List.getLast?_reverse, hdw, List.head?_cons]
        intro hcontra
        exact hane (Option.some_inj.mp hcontra)
      rw [if_neg hdrevne, if_neg hlast] at heq
      have htw : (revHead output).takeWhile (fun c => c = '/') ++
          (revHead output).dropWhile (fun c => c = '/') = revHead output :=
        List.takeWhile_append_dropWhile _ _
      have houtput : ((revHead output).dropWhile (fun c => c = '/')).reverse ++
          (((revHead output).takeWhile (fun c => c = '/')).reverse ++ baseName output) =
            output := by
        rw [← List.append_assoc, ← List.reverse_append, htw]
        exact hdecomp
      have hcomb := houtput.trans heq
      have hcancel := List.append_cancel_left hcomb
      have htwne : (revHead output).takeWhile (fun c => c = '/') ≠ [] := by
        cases hrh : revHead output with
        | nil => exact absurd hrh hcond.1
        | cons c t =>
          have hc := revHead_head output c t hrh
          subst hc
          rw [List.takeWhile_cons]
          simp
      have htwall : ∀ c ∈ ((revHead output).takeWhile (fun c => c = '/')).reverse,
          c = '/' := by
        intro c hc
        rw [List.mem_reverse] at hc
        have := List.mem_takeWhile_imp hc
        simpa using this
      cases htwr : ((revHead output).takeWhile (fun c => c = '/')).reverse with
      | nil =>
        rw [List.reverse_eq_nil_iff] at htwr
        exact htwne htwr
      | cons e u2 =>
        rw [htwr, List.cons_append] at hcancel
        rw [List.cons.injEq] at hcancel
        cases u2 with
        | nil =>
          rw [List.nil_append] at hcancel
          exact base_ne_suffixed output k hcancel.2
        | cons e2 u3 =>
          have he2 : e2 = '/' := htwall e2 (by rw [htwr]; simp)
          rw [List.cons_append] at hcancel
          have hhead2 := hcancel.2
          apply hfhead
          rw [← hhead2, List.head?_cons, he2]
  · rw [if_neg hcond] at heq
    by_cases hrhnil : revHead output = []
    · have h0 : output = baseName output := by
        rw [hrhnil] at hdecomp
        simpa using hdecomp.symm
      rw [hrhnil] at heq
      simp at heq
      refine base_ne_suffixed output k ?_
      have hx := h0.symm.trans heq
      simpa using hx
    · have hrevne : (revHead output).reverse ≠ [] := by
        intro hcontra
        rw [List.reverse_eq_nil_iff] at hcontra
        exact hrhnil hcontra
      have hlast : (revHead output).reverse.getLast? = some '/' := by
        rw [List.getLast?_reverse]
        cases hrh : revHead output with
        | nil => exact absurd hrh hrhnil
        | cons c t => rw [List.head?_cons, revHead_head output c t hrh]
      rw [if_neg hrevne, if_pos hlast] at heq
      have hcomb := hdecomp.trans heq
      have := List.append_cancel_left hcomb
      exact base_ne_suffixed output k this

/-- C9: for every image count, every output path template, and every
starting index (defaulted or overridden), the computed output plan contains
exactly one path per image and no two computed paths are equal. -/
theorem claim_C9 (output : Str) (b : Option Nat) (n : Nat) :
    (savePaths output b n).length = n ∧ (savePaths output b n).Nodup := by
  cases hfs : findSpec (baseName output) with
  | some r =>
    obtain ⟨pre, ds, suf⟩ := r
    rw [savePaths_placeholder output b n pre ds suf hfs]
    refine ⟨by simp, ?_⟩
    refine List.Nodup.map_on ?_ (List.nodup_range n)
    intro i _ j _ heq
    have hf := findSpec_eq _ pre ds suf hfs
    have hnoslash : ∀ m : Nat, ∀ c ∈ pre ++ formatSpec ds (b.getD 0 + m) ++ suf, c ≠ '/' := by
      intro m c hc
      rcases List.mem_append.mp hc with h | h
      · rcases List.mem_append.mp h with h | h
        · exact baseName_no_slash output c (by rw [hf]; exact List.mem_append_left _ h)
        · exact formatSpec_no_slash ds _ c h
      · refine baseName_no_slash output c ?_
        rw [hf]
        exact List.mem_append_right _
          (List.mem_cons_of_mem _ (List.mem_append_right _ (List.mem_cons_of_mem _ h)))
    have h1 := joinPath_inj_right _ _ _ (head_ne_slash_of_all _ (hnoslash i))
      (head_ne_slash_of_all _ (hnoslash j)) heq
    have h2 := List.append_cancel_right h1
    have h3 := List.append_cancel_left h2
    have := formatSpec_injective ds h3
    omega
  | none =>
    rw [savePaths_nospec output b n hfs]
    refine ⟨by simp, ?_⟩
    refine List.Nodup.map_on ?_ (List.nodup_range n)
    intro i _ j _ heq
    by_cases hi : i = 0 <;> by_cases hj : j = 0
    · omega
    · rw [if_pos hi, if_neg hj] at heq
      exact absurd heq (output_ne_suffixed output _)
    · rw [if_neg hi, if_pos hj] at heq
      exact absurd heq.symm (output_ne_suffixed output _)
    · rw [if_neg hi, if_neg hj] at heq
      have hall : ∀ m : Nat, ∀ c ∈ (extSplitBase (baseName output)).1 ++ '_' ::
          natToStr (b.getD 1 + m) ++ (extSplitBase (baseName output)).2, c ≠ '/' :=
        fun m => suffixed_no_slash output (b.getD 1 + m)
      have h1 := joinPath_inj_right _ _ _ (head_ne_slash_of_all _ (hall i))
        (head_ne_slash_of_all _ (hall j)) heq
      have h2 := List.append_cancel_right h1
      have h3 := List.append_cancel_left h2
      rw [List.cons.injEq] at h3
      have := natToStr_injective h3.2
      omega

/-- Scalar or list value of a generation option as supplied on the command
line: strings, integers, booleans, and the comma-split integer lists of the
layer-skip options. -/
inductive JVal where
  | jstr (s : Str)
  | jint (n : Int)
  | jbool (b : Bool)
  | jlist (l : List Int)
deriving DecidableEq

/-- Generation options: a partial map from option name to value; a key maps
to `none` exactly when the caller did not supply it (`parse_arguments` drops
`None` entries). -/
abbrev GenOpts := Str → Option JVal

/-- Utility options of client.py (`util_keys`). -/
structure UtilOpts where
  server_url : Option Str
  output : Option Str
  output_begin_idx : Option Nat
  verbose : Bool

/-- Python truthiness of a value. -/
def pyTruthy : JVal → Bool
  | .jstr s => !s.isEmpty
  | .jint n => n != 0
  | .jbool b => b
  | .jlist l => !l.isEmpty

/-- Truthiness of `gen_opts.get(key)`: `None` is falsy. -/
def truthyOpt : Option JVal → Bool
  | none => false
  | some v => pyTruthy v

/-- Join a list of strings with a separator. -/
def joinSep (sep : Str) : List Str → Str
  | [] => []
  | [x] => x
  | x :: y :: rest => x ++ sep ++ joinSep sep (y :: rest)

/-- Python `str` of a value (used by the f-string building `size`). -/
def pyStr : JVal → Str
  | .jstr s => s
  | .jint n => intToStr n
  | .jbool true => "True".toList
  | .jbool false => "False".toList
  | .jlist l => '[' :: joinSep (", ".toList) (l.map intToStr) ++ [']']

def hexDigitChar (n : Nat) : Char := if n < 10 then Char.ofNat (48 + n) else Char.ofNat (87 + n)

/-- Model of the string escaping of Python `json.dumps`: quote, backslash
and control characters are escaped, everything else is passed through. -/
def encChar (c : Char) : Str :=
  if c = '"' then ['\\', '"']
  else if c = '\\' then ['\\', '\\']
  else if c.toNat = 8 then ['\\', 'b']
  else if c.toNat = 9 then ['\\', 't']
  else if c.toNat = 10 then ['\\', 'n']
  else if c.toNat = 12 then ['\\', 'f']
  else if c.toNat = 13 then ['\\', 'r']
  else if c.toNat < 32 then
    ['\\', 'u', '0', '0', hexDigitChar (c.toNat / 16), hexDigitChar (c.toNat % 16)]
  else [c]

/-- JSON string literal for `s`. -/
def encStr (s : Str) : Str := '"' :: (s.map encChar).flatten ++ ['"']

/-- JSON rendering of a single value, as Python `json.dumps` renders it. -/
def dumpsVal : JVal → Str
  | .jstr s => encStr s
  | .jint n => intToStr n
  | .jbool true => "true".toList
  | .jbool false => "false".toList
  | .jlist l => '[' :: joinSep (", ".toList) (l.map intToStr) ++ [']']

/-- JSON rendering of one key/value pair with the default separators. -/
def pairStr (kv : Str × JVal) : Str := encStr kv.1 ++ ':' :: ' ' :: dumpsVal kv.2

/-- Model of Python `json.dumps` on a string-keyed object with the default
separators. -/
def dumpsObj (kvs : List (Str × JVal)) : Str :=
  '{' :: joinSep (", ".toList) (kvs.map pairStr) ++ ['}']

/-- The fixed allow-list `extension_keys` of `build_openai_payload`. -/
def EXTENSION_KEYS : List Str := [
  "negative_prompt".toList, "seed".toList, "video_frames".toList, "fps".toList,
  "cfg_scale".toList, "img_cfg_scale".toList, "guidance".toList, "strength".toList,
  "steps".toList, "sample_method".toList, "scheduler".toList,
  "high_noise_steps".toList, "high_noise_sample_method".toList,
  "clip_skip".toList, "upscale_repeats".toList, "moe_boundary".toList,
  "control_strength".toList, "pm_style_strength".toList, "vace_strength".toList,
  "cache_mode".toList, "cache_option".toList, "cache_preset".toList, "scm_mask".toList,
  "increase_ref_index".toList, "auto_resize_ref_image".toList,
  "skip_layers".toList, "high_noise_skip_layers".toList]

def openTag : Str := "<sd_cpp_extra_args>".toList

def closeTag : Str := "</sd_cpp_extra_args>".toList

/-- The extension object built by `build_openai_payload`: every allow-listed
key present in the generation options, in allow-list order, then the
width/height leftover handling of lines 136-143 (Python truthiness). -/
def extensionData (g : GenOpts) : List (Str × JVal) :=
  let base := EXTENSION_KEYS.filterMap (fun k => (g k).map (fun v => (k, v)))
  if truthyOpt (g ("width".toList)) = true ∧ truthyOpt (g ("height".toList)) = true then base
  else if truthyOpt (g ("width".toList)) = true then
    base ++ [(("width".toList : Str), (g ("width".toList)).getD (JVal.jint 0))]
  else if truthyOpt (g ("height".toList)) = true then
    base ++ [(("height".toList : Str), (g ("height".toList)).getD (JVal.jint 0))]
  else base

/-- The derived `size` field: present exactly when width and height are both
supplied and truthy. -/
def sizeField (g : GenOpts) : Option Str :=
  if truthyOpt (g ("width".toList)) = true ∧ truthyOpt (g ("height".toList)) = true then
    some (pyStr ((g ("width".toList)).getD (JVal.jint 0)) ++ 'x' ::
      pyStr ((g ("height".toList)).getD (JVal.jint 0)))
  else none

/-- The wire payload: the OpenAI-compatible top-level fields built by
`build_openai_payload`. -/
structure ApiData where
  size : Option Str
  output_format : Option JVal
  n : Option JVal
  prompt : Str

/-- Model of `build_openai_payload` (client.py lines 116-155).  The
`util_opts` argument is accepted and unused, exactly as in the source. -/
def build_openai_payload (g : GenOpts) (u : UtilOpts) : ApiData :=
  ⟨sizeField g,
   if truthyOpt (g ("output_format".toList)) = true then g ("output_format".toList) else none,
   if truthyOpt (g ("batch_count".toList)) = true then g ("batch_count".toList) else none,
   pyStr ((g ("prompt".toList)).getD (JVal.jstr [])) ++ openTag ++
     dumpsObj (extensionData g) ++ closeTag⟩

def JPG_EXTS : List Str := [".jpg".toList, ".jpeg".toList, ".jpe".toList]

/-- Output-format inference of `parse_arguments` (client.py lines 101-106):
runs only when the output value is truthy; `jpeg` for a lowercased extension
of `.jpg`/`.jpeg`/`.jpe`, `png` otherwise. -/
def inferredOutputFormat (output : Str) : Option Str :=
  if output = [] then none
  else some (if ((splitext output).2.map Char.toLower) ∈ JPG_EXTS
    then ("jpeg".toList) else ("png".toList))

/-- The generation-option map after `parse_arguments` injected the inferred
output format; no command-line flag can otherwise populate this key. -/
def withOutputFormat (g : GenOpts) (output : Str) : GenOpts :=
  fun k => if k = "output_format".toList
    then (inferredOutputFormat output).map JVal.jstr else g k

/-- A generation-option map with no supplied option. -/
def gEmpty : GenOpts := fun _ => none

/-- A utility-option record with nothing supplied. -/
def u0 : UtilOpts := ⟨none, none, none, false⟩

example : dumpsObj [] = ['{', '}'] := by decide
example : dumpsObj [(("seed".toList : Str), JVal.jint 42)] =
    ('{' :: '"' :: ("seed".toList) ++ '"' :: ':' :: ' ' :: '4' :: '2' :: ['}']) := by decide

theorem extension_base_keys (g : GenOpts) (k : Str)
    (hk : k ∈ (EXTENSION_KEYS.filterMap (fun k2 => (g k2).map (fun v => (k2, v)))).map
      Prod.fst) : k ∈ EXTENSION_KEYS := by
  rw [List.mem_map] at hk
  obtain ⟨x, hx, hx2⟩ := hk
  rw [List.mem_filterMap] at hx
  obtain ⟨a, ha, ha2⟩ := hx
  rw [Option.map_eq_some'] at ha2
  obtain ⟨v, hv1, hv2⟩ := ha2
  rw [← hv2] at hx2
  simp only at hx2
  rw [← hx2]
  exact ha

theorem width_notin_keys : ("width".toList : Str) ∉ EXTENSION_KEYS := by decide

theorem height_notin_keys : ("height".toList : Str) ∉ EXTENSION_KEYS := by decide

/-- C4 (amended): the width/height folding of `build_openai_payload` under
Python truthiness: both keys supplied and truthy gives the `size` field
`"{width}x{height}"` and neither key in the extension object; only width
truthy gives no `size` and `width` in the extension object; only height
truthy symmetrically; neither truthy gives no size-related field anywhere.
A supplied but zero value behaves like an absent one. -/
theorem claim_C4 (g : GenOpts) (u : UtilOpts) :
    (truthyOpt (g ("width".toList)) = true → truthyOpt (g ("height".toList)) = true →
      (build_openai_payload g u).size =
        some (pyStr ((g ("width".toList)).getD (JVal.jint 0)) ++ 'x' ::
          pyStr ((g ("height".toList)).getD (JVal.jint 0))) ∧
      ("width".toList : Str) ∉ (extensionData g).map Prod.fst ∧
      ("height".toList : Str) ∉ (extensionData g).map Prod.fst) ∧
    (truthyOpt (g ("width".toList)) = true → truthyOpt (g ("height".toList)) = false →
      (build_openai_payload g u).size = none ∧
      ("width".toList : Str) ∈ (extensionData g).map Prod.fst ∧
      ("height".toList : Str) ∉ (extensionData g).map Prod.fst) ∧
    (truthyOpt (g ("width".toList)) = false → truthyOpt (g ("height".toList)) = true →
      (build_openai_payload g u).size = none ∧
      ("height".toList : Str) ∈ (extensionData g).map Prod.fst ∧
      ("width".toList : Str) ∉ (extensionData g).map Prod.fst) ∧
    (truthyOpt (g ("width".toList)) = false → truthyOpt (g ("height".toList)) = false →
      (build_openai_payload g u).size = none ∧
      ("width".toList : Str) ∉ (extensionData g).map Prod.fst ∧
      ("height".toList : Str) ∉ (extensionData g).map Prod.fst) := by
  have hsize : (build_openai_payload g u).size = sizeField g := rfl
  have hwh : ("width".toList : Str) ≠ ("height".toList : Str) := by decide
  refine ⟨?_, ?_, ?_, ?_⟩
  · intro hw hh
    unfold extensionData
    rw [hsize]
    unfold sizeField
    rw [if_pos ⟨hw, hh⟩]
    simp only [if_pos (And.intro hw hh)]
    refine ⟨trivial, ?_, ?_⟩
    · intro hmem; exact width_notin_keys (extension_base_keys g _ hmem)
    · intro hmem; exact height_notin_keys (extension_base_keys g _ hmem)
  · intro hw hh
    have hcond : ¬ (truthyOpt (g ("width".toList)) = true ∧
        truthyOpt (g ("height".toList)) = true) := by
      rw [hh]; simp
    unfold extensionData
    rw [hsize]
    unfold sizeField
    rw [if_neg hcond]
    simp only [if_neg hcond, if_pos hw]
    refine ⟨trivial, ?_, ?_⟩
    · rw [List.map_append, List.mem_append]
      right
      simp
    · intro hmem
      rw [List.map_append, List.mem_append] at hmem
      rcases hmem with hmem | hmem
      · exact height_notin_keys (extension_base_keys g _ hmem)
      · simp only [List.map_cons, List.map_nil, List.mem_singleton] at hmem
        exact hwh.symm hmem
  · intro hw hh
    have hcond : ¬ (truthyOpt (g ("width".toList)) = true ∧
        truthyOpt (g ("height".toList)) = true) := by
      rw [hw]; simp
    have hwfalse : ¬ truthyOpt (g ("width".toList)) = true := by rw [hw]; simp
    unfold extensionData
    rw [hsize]
    unfold sizeField
    rw [if_neg hcond]
    simp only [if_neg hcond, if_neg hwfalse, if_pos hh]
    refine ⟨trivial, ?_, ?_⟩
    · rw [List.map_append, List.mem_append]
      right
      simp
    · intro hmem
      rw [List.map_append, List.mem_append] at hmem
      rcases hmem with hmem | hmem
      · exact width_notin_keys (extension_base_keys g _ hmem)
      · simp only [List.map_cons, List.map_nil, List.mem_singleton] at hmem
        exact hwh hmem
  · intro hw hh
    have hcond : ¬ (truthyOpt (g ("width".toList)) = true ∧
        truthyOpt (g ("height".toList)) = true) := by
      rw [hw]; simp
    have hwfalse : ¬ truthyOpt (g ("width".toList)) = true := by rw [hw]; simp
    have hhfalse : ¬ truthyOpt (g ("height".toList)) = true := by rw [hh]; simp
    unfold extensionData
    rw [hsize]
    unfold sizeField
    rw [if_neg hcond]
    simp only [if_neg hcond, if_neg hwfalse, if_neg hhfalse]
    refine ⟨trivial, ?_, ?_⟩
    · intro hmem; exact width_notin_keys (extension_base_keys g _ hmem)
    · intro hmem; exact height_notin_keys (extension_base_keys g _ hmem)

/-- A generation-option map supplying width 768 and height 512. -/
def gWH : GenOpts := fun k =>
  if k = "width".toList then some (JVal.jint 768)
  else if k = "height".toList then some (JVal.jint 512) else none

theorem claim_C4_witness :
    (build_openai_payload gWH u0).size = some ("768x512".toList) ∧
    ("width".toList : Str) ∉ (extensionData gWH).map Prod.fst ∧
    ("height".toList : Str) ∉ (extensionData gWH).map Prod.fst := by
  have h := (claim_C4 gWH u0).1 (by decide) (by decide)
  refine ⟨?_, h.2.1, h.2.2⟩
  rw [h.1]
  decide

/-- A generation-option map supplying width 768 and a zero height. -/
def gWH0 : GenOpts := fun k =>
  if k = "width".toList then some (JVal.jint 768)
  else if k = "height".toList then some (JVal.jint 0) else none

/-- C4, counterexample to the claim as stated: with width 768 and height 0
both supplied, the claim requires `size = "768x0"`, but the code treats the
zero height as absent, omits `size`, and copies width into the extension
object. -/
theorem claim_C4_counterexample :
    gWH0 ("width".toList) = some (JVal.jint 768) ∧
    gWH0 ("height".toList) = some (JVal.jint 0) ∧
    (build_openai_payload gWH0 u0).size = none ∧
    (build_openai_payload gWH0 u0).size ≠ some ("768x0".toList) ∧
    ("width".toList : Str) ∈ (extensionData gWH0).map Prod.fst := by
  refine ⟨by decide, by decide, by decide, by decide, by decide⟩

/-- C7: the encoded payload prompt is the literal concatenation of the user
prompt (empty when unsupplied), the opening delimiter tag, the JSON
serialization of the extension object, and the closing delimiter tag; the
serialization happens even for an empty extension object, bracketing the
two-character empty JSON object. -/
theorem claim_C7 (g : GenOpts) (u : UtilOpts) :
    (build_openai_payload g u).prompt =
      pyStr ((g ("prompt".toList)).getD (JVal.jstr [])) ++ openTag ++
        dumpsObj (extensionData g) ++ closeTag ∧
    (extensionData g = [] → (build_openai_payload g u).prompt =
      pyStr ((g ("prompt".toList)).getD (JVal.jstr [])) ++ openTag ++
        ('{' :: ['}']) ++ closeTag) := by
  refine ⟨rfl, ?_⟩
  intro h
  have : (build_openai_payload g u).prompt =
      pyStr ((g ("prompt".toList)).getD (JVal.jstr [])) ++ openTag ++
        dumpsObj (extensionData g) ++ closeTag := rfl
  rw [this, h]
  rfl

theorem claim_C7_witness :
    (build_openai_payload gEmpty u0).prompt = openTag ++ ('{' :: ['}']) ++ closeTag := by
  have h := (claim_C7 gEmpty u0).2 (by decide)
  rw [h]
  decide

/-- C10 (amended): whenever the output path option is non-empty (including
the built-in default `./output.png`), the payload carries a top-level
`output_format` of `jpeg` when the lowercased extension is `.jpg`, `.jpeg`
or `.jpe`, and `png` otherwise. -/
theorem claim_C10 (g : GenOpts) (output : Str) (u : UtilOpts) (h : output ≠ []) :
    (build_openai_payload (withOutputFormat g output) u).output_format =
      some (JVal.jstr (if ((splitext output).2.map Char.toLower) ∈ JPG_EXTS
        then ("jpeg".toList) else ("png".toList))) := by
  have hv : (withOutputFormat g output) ("output_format".toList) =
      some (JVal.jstr (if ((splitext output).2.map Char.toLower) ∈ JPG_EXTS
        then ("jpeg".toList) else ("png".toList))) := by
    unfold withOutputFormat inferredOutputFormat
    rw [if_pos rfl, if_neg h]
    rfl
  have hof : (build_openai_payload (withOutputFormat g output) u).output_format =
      if truthyOpt ((withOutputFormat g output) ("output_format".toList)) = true
        then (withOutputFormat g output) ("output_format".toList) else none := rfl
  rw [hof, hv]
  by_cases hc : ((splitext output).2.map Char.toLower) ∈ JPG_EXTS
  · rw [if_pos hc, if_pos (by decide)]
  · rw [if_neg hc, if_pos (by decide)]

theorem claim_C10_witness :
    (build_openai_payload (withOutputFormat gEmpty ("photo.JPG".toList)) u0).output_format =
      some (JVal.jstr ("jpeg".toList)) := by
  rw [claim_C10 gEmpty ("photo.JPG".toList) u0 (by decide)]
  decide

/-- C10, counterexample to the claim as stated: the output option can be
supplied as the empty string (`-o ""`), in which case the truthiness guard
of `parse_arguments` skips the inference, no `output_format` key is created,
and the wire payload carries no `output_format` field at all. -/
theorem claim_C10_counterexample :
    (build_openai_payload (withOutputFormat gEmpty []) u0).output_format = none ∧
    (build_openai_payload (withOutputFormat gEmpty []) u0).output_format ≠
      some (JVal.jstr ("png".toList)) ∧
    (build_openai_payload (withOutputFormat gEmpty []) u0).output_format ≠
      some (JVal.jstr ("jpeg".toList)) := by
  refine ⟨by decide, by decide, by decide⟩

/-- Split a string at the leftmost occurrence of `pat`: the part before the
occurrence and the part after it. -/
def findSub (pat : Str) : Str → Option (Str × Str)
  | [] => if pat = [] then some ([], []) else none
  | c :: rest =>
    if pat.isPrefixOf (c :: rest) then some ([], (c :: rest).drop pat.length)
    else (findSub pat rest).map (fun r => (c :: r.1, r.2))

def hexVal (c : Char) : Option Nat :=
  if 48 ≤ c.toNat ∧ c.toNat ≤ 57 then some (c.toNat - 48)
  else if 97 ≤ c.toNat ∧ c.toNat ≤ 102 then some (c.toNat - 87)
  else if 65 ≤ c.toNat ∧ c.toNat ≤ 70 then some (c.toNat - 55)
  else none

def unescChar (e : Char) : Option Char :=
  if e = '"' then some '"'
  else if e = '\\' then some '\\'
  else if e = '/' then some '/'
  else if e = 'b' then some (Char.ofNat 8)
  else if e = 't' then some (Char.ofNat 9)
  else if e = 'n' then some (Char.ofNat 10)
  else if e = 'f' then some (Char.ofNat 12)
  else if e = 'r' then some (Char.ofNat 13)
  else none

/-- Value of four hexadecimal digits. -/
def pHex4 (h1 h2 h3 h4 : Char) : Option Nat :=
  (hexVal h1).bind (fun a => (hexVal h2).bind (fun b =>
    (hexVal h3).bind (fun c => (hexVal h4).map (fun d =>
      4096 * a + 256 * b + 16 * c + d))))

/-- Parser for the body of a JSON string literal (after the opening quote):
returns the decoded characters and the remainder after the closing quote. -/
def pStrBody : Str → Option (Str × Str)
  | [] => none
  | c :: rest =>
    if c = '"' then some ([], rest)
    else if c = '\\' then
      match rest with
      | [] => none
      | e :: rest2 =>
        if e = 'u' then
          match rest2 with
          | h1 :: h2 :: h3 :: h4 :: rest3 =>
            (pHex4 h1 h2 h3 h4).bind (fun n =>
              (pStrBody rest3).map (fun r => (Char.ofNat n :: r.1, r.2)))
          | _ => none
        else
          (unescChar e).bind (fun c2 => (pStrBody rest2).map (fun r => (c2 :: r.1, r.2)))
    else (pStrBody rest).map (fun r => (c :: r.1, r.2))

/-- Decimal digit test by code point. -/
def isDigitChar (c : Char) : Bool := 48 ≤ c.toNat && c.toNat ≤ 57

/-- Parser for a decimal natural number (one or more digits). -/
def pNat (s : Str) : Option (Nat × Str) :=
  let ds := s.takeWhile isDigitChar
  if ds = [] then none else some (strVal ds, s.dropWhile isDigitChar)

/-- Parser for a decimal integer with optional leading minus sign. -/
def pInt (s : Str) : Option (Int × Str) :=
  if s.head? = some '-' then (pNat s.tail).map (fun r => (-(r.1 : Int), r.2))
  else (pNat s).map (fun r => ((r.1 : Int), r.2))

/-- Parser for a fixed literal. -/
def pLit (lit : Str) (s : Str) : Option Str :=
  if lit.isPrefixOf s then some (s.drop lit.length) else none

/-- Parser for the comma-space separated items of a non-empty integer list,
up to and including the closing bracket.  The fuel argument bounds the
number of items and keeps the recursion structural. -/
def pListItems : Nat → Str → Option (List Int × Str)
  | 0, _ => none
  | fuel + 1, s =>
    (pInt s).bind (fun vr =>
      match vr.2 with
      | ']' :: r2 => some ([vr.1], r2)
      | ',' :: ' ' :: r2 => (pListItems fuel r2).map (fun q => (vr.1 :: q.1, q.2))
      | _ => none)

/-- Parser for an integer list in brackets. -/
def pListInt (s : Str) : Option (List Int × Str) :=
  if s.head? = some '[' then
    if s.tail.head? = some ']' then some ([], s.tail.tail)
    else pListItems (s.tail.length + 1) s.tail
  else none

/-- Parser for a single extension value: string, boolean, integer list or
integer, dispatched on the first character. -/
def pVal (s : Str) : Option (JVal × Str) :=
  if s.head? = some '"' then (pStrBody s.tail).map (fun r => (JVal.jstr r.1, r.2))
  else if s.head? = some 't' then (pLit ("true".toList) s).map (fun r => (JVal.jbool true, r))
  else if s.head? = some 'f' then (pLit ("false".toList) s).map (fun r => (JVal.jbool false, r))
  else if s.head? = some '[' then (pListInt s).map (fun r => (JVal.jlist r.1, r.2))
  else (pInt s).map (fun r => (JVal.jint r.1, r.2))

/-- Parser for the comma-space separated key/value pairs of a non-empty JSON
object body, up to and including the closing brace. -/
def pPairs : Nat → Str → Option (List (Str × JVal) × Str)
  | 0, _ => none
  | fuel + 1, s =>
    if s.head? = some '"' then
      (pStrBody s.tail).bind (fun kr =>
        match kr.2 with
        | ':' :: ' ' :: r2 =>
          (pVal r2).bind (fun vr =>
            match vr.2 with
            | '}' :: r4 => some ([(kr.1, vr.1)], r4)
            | ',' :: ' ' :: r4 =>
              (pPairs fuel r4).map (fun q => ((kr.1, vr.1) :: q.1, q.2))
            | _ => none)
        | _ => none)
    else none

/-- Parser for a JSON object with string keys and extension values. -/
def pObjTop (s : Str) : Option (List (Str × JVal) × Str) :=
  if s.head? = some '{' then
    if s.tail.head? = some '}' then some ([], s.tail.tail)
    else pPairs (s.tail.length + 1) s.tail
  else none

/-- Modelled from the spec: the server-side decoding of the extension
side-channel, whose implementation is not under src/ — quoting the spec,
server-specific parameters are transmitted inside the prompt "wrapped
between a fixed opening tag and a matching fixed closing tag, containing a
JSON object", and the round-trip property parses "the JSON object found
between the opening delimiter tag and the closing delimiter tag".  The text
between the leftmost opening tag and the first closing tag after it must
parse, in full, as a JSON object. -/
def parseExt (s : Str) : Option (List (Str × JVal)) :=
  (findSub openTag s).bind (fun r =>
    (findSub closeTag r.2).bind (fun q =>
      (pObjTop q.1).bind (fun p => if p.2 = [] then some p.1 else none)))

example : pObjTop ['{', '}'] = some ([], []) := by decide
example : parseExt (build_openai_payload gEmpty u0).prompt = some [] := by decide

theorem encChar_quote : encChar '"' = ['\\', '"'] := rfl

theorem encChar_backslash : encChar '\\' = ['\\', '\\'] := rfl

theorem encChar_raw (c : Char) (h1 : c ≠ '"') (h2 : c ≠ '\\') (h3 : 32 ≤ c.toNat) :
    encChar c = [c] := by
  unfold encChar
  rw [if_neg h1, if_neg h2, if_neg (by omega), if_neg (by omega), if_neg (by omega),
    if_neg (by omega), if_neg (by omega), if_neg (by omega)]

theorem encChar_ctrl (c : Char) (h1 : c.toNat ≠ 8) (h2 : c.toNat ≠ 9) (h3 : c.toNat ≠ 10)
    (h4 : c.toNat ≠ 12) (h5 : c.toNat ≠ 13) (h6 : c.toNat < 32) :
    encChar c = ['\\', 'u', '0', '0', hexDigitChar (c.toNat / 16), hexDigitChar (c.toNat % 16)] := by
  have hq : c ≠ '"' := fun he => by subst he; exact absurd h6 (by decide)
  have hb : c ≠ '\\' := fun he => by subst he; exact absurd h6 (by decide)
  unfold encChar
  rw [if_neg hq, if_neg hb, if_neg h1, if_neg h2, if_neg h3, if_neg h4, if_neg h5, if_pos h6]

theorem hexVal_hexDigitChar : ∀ n, n < 16 → hexVal (hexDigitChar n) = some n := by decide

theorem pHex4_zeros (h3 h4 : Char) (a b : Nat) (e3 : hexVal h3 = some a)
    (e4 : hexVal h4 = some b) : pHex4 '0' '0' h3 h4 = some (16 * a + b) := by
  unfold pHex4
  have h0 : hexVal '0' = some 0 := rfl
  rw [h0, e3, e4]
  simp

theorem pStrBody_quote (X : Str) : pStrBody ('"' :: X) = some ([], X) := by
  rw [pStrBody.eq_def]
  rfl

theorem pStrBody_esc_quote (X : Str) :
    pStrBody ('\\' :: '"' :: X) = (pStrBody X).map (fun r => ('"' :: r.1, r.2)) := by
  rw [pStrBody.eq_def]
  rfl

theorem pStrBody_esc_backslash (X : Str) :
    pStrBody ('\\' :: '\\' :: X) = (pStrBody X).map (fun r => ('\\' :: r.1, r.2)) := by
  rw [pStrBody.eq_def]
  rfl

theorem pStrBody_esc_b (X : Str) :
    pStrBody ('\\' :: 'b' :: X) = (pStrBody X).map (fun r => (Char.ofNat 8 :: r.1, r.2)) := by
  rw [pStrBody.eq_def]
  rfl

theorem pStrBody_esc_t (X : Str) :
    pStrBody ('\\' :: 't' :: X) = (pStrBody X).map (fun r => (Char.ofNat 9 :: r.1, r.2)) := by
  rw [pStrBody.eq_def]
  rfl

theorem pStrBody_esc_n (X : Str) :
    pStrBody ('\\' :: 'n' :: X) = (pStrBody X).map (fun r => (Char.ofNat 10 :: r.1, r.2)) := by
  rw [pStrBody.eq_def]
  rfl

theorem pStrBody_esc_f (X : Str) :
    pStrBody ('\\' :: 'f' :: X) = (pStrBody X).map (fun r => (Char.ofNat 12 :: r.1, r.2)) := by
  rw [pStrBody.eq_def]
  rfl

theorem pStrBody_esc_r (X : Str) :
    pStrBody ('\\' :: 'r' :: X) = (pStrBody X).map (fun r => (Char.ofNat 13 :: r.1, r.2)) := by
  rw [pStrBody.eq_def]
  rfl

theorem pStrBody_esc_u (h1 h2 h3 h4 : Char) (X : Str) :
    pStrBody ('\\' :: 'u' :: h1 :: h2 :: h3 :: h4 :: X) =
      (pHex4 h1 h2 h3 h4).bind (fun n =>
        (pStrBody X).map (fun r => (Char.ofNat n :: r.1, r.2))) := by
  rw [pStrBody.eq_def]
  rfl

theorem pStrBody_raw (c : Char) (h1 : c ≠ '"') (h2 : c ≠ '\\') (X : Str) :
    pStrBody (c :: X) = (pStrBody X).map (fun r => (c :: r.1, r.2)) := by
  rw [pStrBody.eq_def]
  dsimp only
  rw [if_neg h1, if_neg h2]

theorem char_eq_of_toNat (c : Char) (n : Nat) (h : c.toNat = n) : c = Char.ofNat n := by
  rw [← h, Char.ofNat_toNat]

theorem encChar_e8 (c : Char) (h : c.toNat = 8) : encChar c = ['\\', 'b'] := by
  have hq : c ≠ '"' := fun he => by subst he; exact absurd h (by decide)
  have hb : c ≠ '\\' := fun he => by subst he; exact absurd h (by decide)
  unfold encChar
  rw [if_neg hq, if_neg hb, if_pos h]

theorem encChar_e9 (c : Char) (h : c.toNat = 9) : encChar c = ['\\', 't'] := by
  have hq : c ≠ '"' := fun he => by subst he; exact absurd h (by decide)
  have hb : c ≠ '\\' := fun he => by subst he; exact absurd h (by decide)
  unfold encChar
  rw [if_neg hq, if_neg hb, if_neg (by omega), if_pos h]

theorem encChar_e10 (c : Char) (h : c.toNat = 10) : encChar c = ['\\', 'n'] := by
  have hq : c ≠ '"' := fun he => by subst he; exact absurd h (by decide)
  have hb : c ≠ '\\' := fun he => by subst he; exact absurd h (by decide)
  unfold encChar
  rw [if_neg hq, if_neg hb, if_neg (by omega), if_neg (by omega), if_pos h]

theorem encChar_e12 (c : Char) (h : c.toNat = 12) : encChar c = ['\\', 'f'] := by
  have hq : c ≠ '"' := fun he => by subst he; exact absurd h (by decide)
  have hb : c ≠ '\\' := fun he => by subst he; exact absurd h (by decide)
  unfold encChar
  rw [if_neg hq, if_neg hb, if_neg (by omega), if_neg (by omega), if_neg (by omega), if_pos h]

theorem encChar_e13 (c : Char) (h : c.toNat = 13) : encChar c = ['\\', 'r'] := by
  have hq : c ≠ '"' := fun he => by subst he; exact absurd h (by decide)
  have hb : c ≠ '\\' := fun he => by subst he; exact absurd h (by decide)
  unfold encChar
  rw [if_neg hq, if_neg hb, if_neg (by omega), if_neg (by omega), if_neg (by omega),
    if_neg (by omega), if_pos h]

theorem pStrBody_enc : ∀ (s rest : Str),
    pStrBody ((s.map encChar).flatten ++ '"' :: rest) = some (s, rest) := by
  intro s
  induction s with
  | nil =>
    intro rest
    simp only [List.map_nil, List.flatten_nil, List.nil_append]
    exact pStrBody_quote rest
  | cons c cs ih =>
    intro rest
    rw [List.map_cons, List.flatten_cons, List.append_assoc]
    by_cases h1 : c = '"'
    · subst h1
      rw [encChar_quote]
      simp only [List.cons_append, List.nil_append]
      rw [pStrBody_esc_quote, ih rest]
      rfl
    · by_cases h2 : c = '\\'
      · subst h2
        rw [encChar_backslash]
        simp only [List.cons_append, List.nil_append]
        rw [pStrBody_esc_backslash, ih rest]
        rfl
      · by_cases h8 : c.toNat = 8
        · rw [encChar_e8 c h8]
          simp only [List.cons_append, List.nil_append]
          rw [pStrBody_esc_b, ih rest, ← char_eq_of_toNat c 8 h8]
          rfl
        · by_cases h9 : c.toNat = 9
          · rw [encChar_e9 c h9]
            simp only [List.cons_append, List.nil_append]
            rw [pStrBody_esc_t, ih rest, ← char_eq_of_toNat c 9 h9]
            rfl
          · by_cases h10 : c.toNat = 10
            · rw [encChar_e10 c h10]
              simp only [List.cons_append, List.nil_append]
              rw [pStrBody_esc_n, ih rest, ← char_eq_of_toNat c 10 h10]
              rfl
            · by_cases h12 : c.toNat = 12
              · rw [encChar_e12 c h12]
                simp only [List.cons_append, List.nil_append]
                rw [pStrBody_esc_f, ih rest, ← char_eq_of_toNat c 12 h12]
                rfl
              · by_cases h13 : c.toNat = 13
                · rw [encChar_e13 c h13]
                  simp only [List.cons_append, List.nil_append]
                  rw [pStrBody_esc_r, ih rest, ← char_eq_of_toNat c 13 h13]
                  rfl
                · by_cases hlt : c.toNat < 32
                  · rw [encChar_ctrl c h8 h9 h10 h12 h13 hlt]
                    simp only [List.cons_append, List.nil_append]
                    rw [pStrBody_esc_u,
                      pHex4_zeros _ _ _ _ (hexVal_hexDigitChar _ (by omega))
                        (hexVal_hexDigitChar _ (by omega)),
                      ih rest]
                    have hdm : 16 * (c.toNat / 16) + c.toNat % 16 = c.toNat :=
                      Nat.div_add_mod c.toNat 16
                    simp only [Option.some_bind, Option.map_some', hdm, Char.ofNat_toNat]
                  · rw [encChar_raw c h1 h2 (by omega)]
                    simp only [List.cons_append, List.nil_append]
                    rw [pStrBody_raw c h1 h2, ih rest]
                    rfl

theorem takeWhile_append_all {P : Char → Bool} :
    ∀ (l1 l2 : List Char), (∀ c ∈ l1, P c = true) →
      (l1 ++ l2).takeWhile P = l1 ++ l2.takeWhile P := by
  intro l1
  induction l1 with
  | nil => intro l2 h; simp
  | cons a t ih =>
    intro l2 h
    rw [List.cons_append, List.takeWhile_cons, if_pos (h a (List.mem_cons_self _ _)),
      ih l2 (fun c hc => h c (List.mem_cons_of_mem _ hc)), List.cons_append]

theorem dropWhile_append_all {P : Char → Bool} :
    ∀ (l1 l2 : List Char), (∀ c ∈ l1, P c = true) →
      (l1 ++ l2).dropWhile P = l2.dropWhile P := by
  intro l1
  induction l1 with
  | nil => intro l2 h; simp
  | cons a t ih =>
    intro l2 h
    rw [List.cons_append, List.dropWhile_cons, if_pos (h a (List.mem_cons_self _ _)),
      ih l2 (fun c hc => h c (List.mem_cons_of_mem _ hc))]

theorem natToStr_digitChar (n : Nat) : ∀ c ∈ natToStr n, isDigitChar c = true := by
  intro c hc
  have := natToStr_chars n c hc
  simp [isDigitChar]
  omega

theorem pNat_append (n : Nat) (rest : Str)
    (hrest : ∀ c, rest.head? = some c → isDigitChar c = false) :
    pNat (natToStr n ++ rest) = some (n, rest) := by
  unfold pNat
  have hrt : rest.takeWhile isDigitChar = [] := by
    cases rest with
    | nil => rfl
    | cons a t => rw [List.takeWhile_cons, if_neg (by rw [hrest a rfl]; simp)]
  have hrd : rest.dropWhile isDigitChar = rest := by
    cases rest with
    | nil => rfl
    | cons a t => rw [List.dropWhile_cons, if_neg (by rw [hrest a rfl]; simp)]
  rw [takeWhile_append_all _ _ (natToStr_digitChar n),
    dropWhile_append_all _ _ (natToStr_digitChar n), hrt, hrd, List.append_nil]
  rw [if_neg (natToStr_ne_nil n), strVal_natToStr]

theorem intToStr_head (i : Int) :
    ∃ c t, intToStr i = c :: t ∧ (c = '-' ∨ (48 ≤ c.toNat ∧ c.toNat ≤ 57)) := by
  unfold intToStr
  by_cases hneg : i < 0
  · rw [if_pos hneg]
    exact ⟨'-', natToStr i.natAbs, rfl, Or.inl rfl⟩
  · rw [if_neg hneg]
    cases hh : natToStr i.natAbs with
    | nil => exact absurd hh (natToStr_ne_nil _)
    | cons c t =>
      refine ⟨c, t, rfl, Or.inr ?_⟩
      exact natToStr_chars _ c (by rw [hh]; exact List.mem_cons_self _ _)

theorem pInt_append (i : Int) (rest : Str)
    (hrest : ∀ c, rest.head? = some c → isDigitChar c = false) :
    pInt (intToStr i ++ rest) = some (i, rest) := by
  unfold pInt intToStr
  by_cases hneg : i < 0
  · rw [if_pos hneg, List.cons_append,
      if_pos (show (('-' : Char) :: (natToStr i.natAbs ++ rest)).head? = some '-' from rfl),
      List.tail_cons, pNat_append _ _ hrest]
    simp only [Option.map_some', Option.some_inj, Prod.mk.injEq]
    exact ⟨by omega, trivial⟩
  · rw [if_neg hneg]
    have hne : ((natToStr i.natAbs ++ rest).head? = some '-') → False := by
      intro hcontra
      cases hh : natToStr i.natAbs with
      | nil => exact absurd hh (natToStr_ne_nil _)
      | cons c t =>
        rw [hh, List.cons_append, List.head?_cons, Option.some_inj] at hcontra
        have := natToStr_chars _ c (by rw [hh]; exact List.mem_cons_self _ _)
        rw [hcontra] at this
        revert this
        decide
    rw [if_neg hne, pNat_append _ _ hrest]
    simp only [Option.map_some', Option.some_inj, Prod.mk.injEq]
    exact ⟨by omega, trivial⟩

theorem isPrefixOf_append_self (l r : List Char) : l.isPrefixOf (l ++ r) = true := by
  rw [ List.isPrefixOf_iff_prefix]
  exact ⟨r, rfl⟩

theorem pLit_self (lit rest : Str) : pLit lit (lit ++ rest) = some rest := by
  unfold pLit
  rw [if_pos (isPrefixOf_append_self lit rest), List.drop_left]

theorem pListItems_succ (fuel : Nat) (s : Str) :
    pListItems (fuel + 1) s = (pInt s).bind (fun vr =>
      match vr.2 with
      | ']' :: r2 => some ([vr.1], r2)
      | ',' :: ' ' :: r2 => (pListItems fuel r2).map (fun q => (vr.1 :: q.1, q.2))
      | _ => none) := rfl

theorem pPairs_succ (fuel : Nat) (s : Str) :
    pPairs (fuel + 1) s = (if s.head? = some '"' then
      (pStrBody s.tail).bind (fun kr =>
        match kr.2 with
        | ':' :: ' ' :: r2 =>
          (pVal r2).bind (fun vr =>
            match vr.2 with
            | '}' :: r4 => some ([(kr.1, vr.1)], r4)
            | ',' :: ' ' :: r4 =>
              (pPairs fuel r4).map (fun q => ((kr.1, vr.1) :: q.1, q.2))
            | _ => none)
        | _ => none)
    else none) := rfl

theorem not_digit_rbracket : ∀ c : Char, (']' :: ([] : Str)).head? = some c → isDigitChar c = false := by
  intro c hc
  rw [List.head?_cons, Option.some_inj] at hc
  subst hc
  rfl

theorem head_not_digit_of (x : Char) (t : Str) (hx : isDigitChar x = false) :
    ∀ c : Char, (x :: t).head? = some c → isDigitChar c = false := by
  intro c hc
  rw [List.head?_cons, Option.some_inj] at hc
  subst hc
  exact hx

theorem pListItems_rt : ∀ (l : List Int) (fuel : Nat) (rest : Str), l ≠ [] →
    l.length ≤ fuel →
    pListItems fuel (joinSep (", ".toList) (l.map intToStr) ++ ']' :: rest) =
      some (l, rest) := by
  intro l
  induction l with
  | nil => intro fuel rest h; exact absurd rfl h
  | cons v vs ih =>
    intro fuel rest _ hl
    match fuel with
    | fuel + 1 =>
    cases vs with
    | nil =>
      show pListItems (fuel + 1) (intToStr v ++ ']' :: rest) = some ([v], rest)
      rw [pListItems_succ, pInt_append v (']' :: rest) (head_not_digit_of ']' rest rfl)]
      rfl
    | cons w ws =>
      have hj : joinSep (", ".toList) ((v :: w :: ws).map intToStr) =
          intToStr v ++ (", ".toList) ++ joinSep (", ".toList) ((w :: ws).map intToStr) := rfl
      rw [hj]
      have hshape : intToStr v ++ (", ".toList) ++
          joinSep (", ".toList) ((w :: ws).map intToStr) ++ ']' :: rest =
          intToStr v ++ (',' :: ' ' ::
            (joinSep (", ".toList) ((w :: ws).map intToStr) ++ ']' :: rest)) := by
        simp [List.append_assoc]
      rw [hshape, pListItems_succ,
        pInt_append v _ (head_not_digit_of ',' _ rfl)]
      simp only [Option.some_bind]
      rw [ih fuel rest (by simp) (by simp at hl ⊢; omega)]
      rfl

theorem length_le_joinSep : ∀ (items : List Str),
    items.length ≤ (joinSep (", ".toList) items).length + 1 := by
  intro items
  induction items with
  | nil => simp [joinSep]
  | cons x t ih =>
    cases t with
    | nil => simp [joinSep]
    | cons y r =>
      have hj : joinSep (", ".toList) (x :: y :: r) =
          x ++ (", ".toList) ++ joinSep (", ".toList) (y :: r) := rfl
      rw [hj]
      have hd : (", ".toList : Str).length = 2 := rfl
      simp only [List.length_cons, List.length_append] at ih ⊢
      omega

theorem joinSep_cons_head (sep x : Str) (items : List Str) :
    ∃ t2, joinSep sep (x :: items) = x ++ t2 := by
  cases items with
  | nil => exact ⟨[], (List.append_nil x).symm⟩
  | cons y r => exact ⟨sep ++ joinSep sep (y :: r), by simp [joinSep, List.append_assoc]⟩

theorem pListInt_rt (l : List Int) (rest : Str) :
    pListInt (dumpsVal (JVal.jlist l) ++ rest) = some (l, rest) := by
  cases l with
  | nil => rfl
  | cons v vs =>
    have hshape : dumpsVal (JVal.jlist (v :: vs)) ++ rest =
        '[' :: (joinSep (", ".toList) ((v :: vs).map intToStr) ++ ']' :: rest) := by
      show ('[' :: joinSep (", ".toList) ((v :: vs).map intToStr)) ++ [']'] ++ rest = _
      simp [List.append_assoc]
    rw [hshape]
    obtain ⟨c, t, hct, hc⟩ := intToStr_head v
    obtain ⟨t2, ht2⟩ := joinSep_cons_head (", ".toList) (intToStr v) (vs.map intToStr)
    have hJ : joinSep (", ".toList) ((v :: vs).map intToStr) = c :: (t ++ t2) := by
      rw [List.map_cons, ht2, hct, List.cons_append]
    unfold pListInt
    rw [if_pos (by rfl)]
    rw [List.tail_cons]
    have hne : ¬ ((joinSep (", ".toList) ((v :: vs).map intToStr) ++
        ']' :: rest).head? = some ']') := by
      rw [hJ, List.cons_append, List.head?_cons]
      intro hcontra
      rw [Option.some_inj] at hcontra
      subst hcontra
      rcases hc with h | h
      · exact absurd h (by decide)
      · revert h
        decide
    rw [if_neg hne]
    apply pListItems_rt (v :: vs) _ rest (by simp)
    have hlen := length_le_joinSep ((v :: vs).map intToStr)
    simp only [List.length_map, List.length_cons, List.length_append] at hlen ⊢
    omega

theorem pVal_dumps (v : JVal) (rest : Str)
    (hrest : rest.head? = some '}' ∨ rest.head? = some ',') :
    pVal (dumpsVal v ++ rest) = some (v, rest) := by
  have hrestd : ∀ c, rest.head? = some c → isDigitChar c = false := by
    intro c hc
    rcases hrest with h | h <;> rw [h, Option.some_inj] at hc <;> subst hc <;> rfl
  cases v with
  | jstr s =>
    have hshape : dumpsVal (JVal.jstr s) ++ rest =
        '"' :: ((s.map encChar).flatten ++ '"' :: rest) := by
      show ('"' :: (s.map encChar).flatten) ++ ['"'] ++ rest = _
      simp [List.append_assoc]
    rw [hshape]
    unfold pVal
    have hq : ('"' :: ((s.map encChar).flatten ++ '"' :: rest)).head? = some '"' := rfl
    rw [if_pos hq, List.tail_cons, pStrBody_enc]
    rfl
  | jint n =>
    obtain ⟨c, t, hct, hc⟩ := intToStr_head n
    have hhead : (dumpsVal (JVal.jint n) ++ rest).head? = some c := by
      show (intToStr n ++ rest).head? = some c
      rw [hct, List.cons_append, List.head?_cons]
    have hc1 : c ≠ '"' := by
      rcases hc with h | h
      · subst h; decide
      · intro he; subst he; revert h; decide
    have hc2 : c ≠ 't' := by
      rcases hc with h | h
      · subst h; decide
      · intro he; subst he; revert h; decide
    have hc3 : c ≠ 'f' := by
      rcases hc with h | h
      · subst h; decide
      · intro he; subst he; revert h; decide
    have hc4 : c ≠ '[' := by
      rcases hc with h | h
      · subst h; decide
      · intro he; subst he; revert h; decide
    unfold pVal
    rw [if_neg (by rw [hhead]; simpa using hc1), if_neg (by rw [hhead]; simpa using hc2),
      if_neg (by rw [hhead]; simpa using hc3), if_neg (by rw [hhead]; simpa using hc4)]
    rw [show dumpsVal (JVal.jint n) = intToStr n from rfl, pInt_append n rest hrestd]
    rfl
  | jbool b =>
    cases b with
    | false =>
      have hshape : dumpsVal (JVal.jbool false) ++ rest =
          'f' :: ("alse".toList ++ rest) := rfl
      unfold pVal
      rw [hshape]
      have hq : ('f' :: (("alse".toList : Str) ++ rest)).head? = some 'f' := rfl
      rw [if_neg (by simp), if_neg (by simp), if_pos hq]
      rw [show 'f' :: (("alse".toList : Str) ++ rest) = "false".toList ++ rest from rfl,
        pLit_self]
      rfl
    | true =>
      have hshape : dumpsVal (JVal.jbool true) ++ rest =
          't' :: ("rue".toList ++ rest) := rfl
      unfold pVal
      rw [hshape]
      have hq : ('t' :: (("rue".toList : Str) ++ rest)).head? = some 't' := rfl
      rw [if_neg (by simp), if_pos hq]
      rw [show 't' :: (("rue".toList : Str) ++ rest) = "true".toList ++ rest from rfl,
        pLit_self]
      rfl
  | jlist l =>
    have hhead : (dumpsVal (JVal.jlist l) ++ rest).head? = some '[' := by
      cases l <;> rfl
    unfold pVal
    rw [if_neg (by rw [hhead]; simp), if_neg (by rw [hhead]; simp),
      if_neg (by rw [hhead]; simp), if_pos hhead, pListInt_rt]
    rfl

theorem pPairs_rt : ∀ (kvs : List (Str × JVal)) (fuel : Nat) (rest : Str), kvs ≠ [] →
    kvs.length ≤ fuel →
    pPairs fuel (joinSep (", ".toList) (kvs.map pairStr) ++ '}' :: rest) =
      some (kvs, rest) := by
  intro kvs
  induction kvs with
  | nil => intro fuel rest h; exact absurd rfl h
  | cons kv vs ih =>
    obtain ⟨k, v⟩ := kv
    intro fuel rest _ hl
    match fuel with
    | fuel + 1 =>
    cases vs with
    | nil =>
      have hshape : joinSep (", ".toList) ([((k : Str), v)].map pairStr) ++ '}' :: rest =
          '"' :: ((k.map encChar).flatten ++
            '"' :: ':' :: ' ' :: (dumpsVal v ++ '}' :: rest)) := by
        show pairStr (k, v) ++ '}' :: rest = _
        show (encStr k ++ ':' :: ' ' :: dumpsVal v) ++ '}' :: rest = _
        show ((('"' :: (k.map encChar).flatten) ++ ['"']) ++
          ':' :: ' ' :: dumpsVal v) ++ '}' :: rest = _
        simp [List.append_assoc]
      rw [hshape, pPairs_succ]
      have hq : ('"' :: ((k.map encChar).flatten ++
          '"' :: ':' :: ' ' :: (dumpsVal v ++ '}' :: rest))).head? = some '"' := rfl
      rw [if_pos hq, List.tail_cons, pStrBody_enc]
      simp only [Option.some_bind]
      rw [pVal_dumps v ('}' :: rest) (Or.inl rfl)]
      rfl
    | cons kv2 vs2 =>
      have hshape : joinSep (", ".toList) (((k, v) :: kv2 :: vs2).map pairStr) ++
          '}' :: rest =
          '"' :: ((k.map encChar).flatten ++ '"' :: ':' :: ' ' ::
            (dumpsVal v ++ ',' :: ' ' ::
              (joinSep (", ".toList) ((kv2 :: vs2).map pairStr) ++ '}' :: rest))) := by
        show (pairStr (k, v) ++ (", ".toList) ++
          joinSep (", ".toList) ((kv2 :: vs2).map pairStr)) ++ '}' :: rest = _
        show ((((('"' :: (k.map encChar).flatten) ++ ['"']) ++
          ':' :: ' ' :: dumpsVal v) ++ (", ".toList)) ++
          joinSep (", ".toList) ((kv2 :: vs2).map pairStr)) ++ '}' :: rest = _
        simp [List.append_assoc]
      rw [hshape, pPairs_succ]
      have hq : ('"' :: ((k.map encChar).flatten ++ '"' :: ':' :: ' ' ::
          (dumpsVal v ++ ',' :: ' ' ::
            (joinSep (", ".toList) ((kv2 :: vs2).map pairStr) ++
              '}' :: rest)))).head? = some '"' := rfl
      rw [if_pos hq, List.tail_cons, pStrBody_enc]
      simp only [Option.some_bind]
      rw [pVal_dumps v (',' :: ' ' ::
        (joinSep (", ".toList) ((kv2 :: vs2).map pairStr) ++ '}' :: rest)) (Or.inr rfl)]
      simp only [Option.some_bind]
      rw [ih fuel rest (by simp) (by simp at hl ⊢; omega)]
      rfl

theorem pObjTop_rt (kvs : List (Str × JVal)) (rest : Str) :
    pObjTop (dumpsObj kvs ++ rest) = some (kvs, rest) := by
  cases kvs with
  | nil => rfl
  | cons kv vs =>
    have hshape : dumpsObj (kv :: vs) ++ rest =
        '{' :: (joinSep (", ".toList) ((kv :: vs).map pairStr) ++ '}' :: rest) := by
      show ('{' :: joinSep (", ".toList) ((kv :: vs).map pairStr)) ++ ['}'] ++ rest = _
      simp [List.append_assoc]
    rw [hshape]
    unfold pObjTop
    have hq : ('{' :: (joinSep (", ".toList) ((kv :: vs).map pairStr) ++
        '}' :: rest)).head? = some '{' := rfl
    rw [if_pos hq, List.tail_cons]
    obtain ⟨t2, ht2⟩ := joinSep_cons_head (", ".toList) (pairStr kv) (vs.map pairStr)
    have hne : ¬ ((joinSep (", ".toList) ((kv :: vs).map pairStr) ++
        '}' :: rest).head? = some '}') := by
      rw [List.map_cons, ht2]
      show ((('"' :: (kv.1.map encChar).flatten ++ ['"']) ++
        ':' :: ' ' :: dumpsVal kv.2 ++ t2) ++ '}' :: rest).head? = some '}' → False
      simp [List.cons_append]
    rw [if_neg hne]
    apply pPairs_rt (kv :: vs) _ rest (by simp)
    have hlen := length_le_joinSep ((kv :: vs).map pairStr)
    simp only [List.length_map, List.length_cons, List.length_append] at hlen ⊢
    omega

theorem findSub_cons (pat : Str) (c : Char) (rest : Str) :
    findSub pat (c :: rest) =
      if pat.isPrefixOf (c :: rest) then some ([], (c :: rest).drop pat.length)
      else (findSub pat rest).map (fun r => (c :: r.1, r.2)) := rfl

theorem findSub_exact (pat pre post : Str) (hpat : pat.head? = some '<')
    (hpre : ∀ c ∈ pre, c ≠ '<') :
    findSub pat (pre ++ (pat ++ post)) = some (pre, post) := by
  induction pre with
  | nil =>
    rw [List.nil_append]
    obtain ⟨p, pt, hppt⟩ : ∃ p pt, pat = p :: pt := by
      cases pat with
      | nil => simp at hpat
      | cons p pt => exact ⟨p, pt, rfl⟩
    rw [hppt, List.cons_append, findSub_cons,
      if_pos (by rw [← List.cons_append, ← hppt]; exact isPrefixOf_append_self pat post)]
    rw [← List.cons_append, ← hppt, List.drop_left]
  | cons c pre ih =>
    have hc : c ≠ '<' := hpre c (List.mem_cons_self _ _)
    rw [List.cons_append, findSub_cons]
    have hnp : ¬ (pat.isPrefixOf (c :: (pre ++ (pat ++ post))) = true) := by
      intro hcontra
      rw [ List.isPrefixOf_iff_prefix] at hcontra
      obtain ⟨t2, ht2⟩ := hcontra
      obtain ⟨p, pt, hppt⟩ : ∃ p pt, pat = p :: pt := by
        cases pat with
        | nil => simp at hpat
        | cons p pt => exact ⟨p, pt, rfl⟩
      rw [hppt, List.cons_append, List.cons.injEq] at ht2
      have hp : p = '<' := by
        rw [hppt, List.head?_cons, Option.some_inj] at hpat
        exact hpat
      exact hc (by rw [← ht2.1, hp])
    rw [if_neg hnp, ih (fun x hx => hpre x (List.mem_cons_of_mem _ hx))]
    rfl

theorem hexDigitChar_ne_lt : ∀ n, n < 16 → hexDigitChar n ≠ '<' := by decide

theorem encChar_no_lt (c : Char) (hc : c ≠ '<') : ∀ c2 ∈ encChar c, c2 ≠ '<' := by
  intro c2 hc2
  unfold encChar at hc2
  split_ifs at hc2 with h1 h2 h3 h4 h5 h6 h7 h8
  · simp only [List.mem_cons, List.mem_singleton, List.not_mem_nil, or_false] at hc2
    rcases hc2 with h | h <;> subst h <;> decide
  · simp only [List.mem_cons, List.mem_singleton, List.not_mem_nil, or_false] at hc2
    rcases hc2 with h | h <;> subst h <;> decide
  · simp only [List.mem_cons, List.mem_singleton, List.not_mem_nil, or_false] at hc2
    rcases hc2 with h | h <;> subst h <;> decide
  · simp only [List.mem_cons, List.mem_singleton, List.not_mem_nil, or_false] at hc2
    rcases hc2 with h | h <;> subst h <;> decide
  · simp only [List.mem_cons, List.mem_singleton, List.not_mem_nil, or_false] at hc2
    rcases hc2 with h | h <;> subst h <;> decide
  · simp only [List.mem_cons, List.mem_singleton, List.not_mem_nil, or_false] at hc2
    rcases hc2 with h | h <;> subst h <;> decide
  · simp only [List.mem_cons, List.mem_singleton, List.not_mem_nil, or_false] at hc2
    rcases hc2 with h | h <;> subst h <;> decide
  · simp only [List.mem_cons, List.mem_singleton, List.not_mem_nil, or_false] at hc2
    rcases hc2 with h | h | h | h | h | h
    · subst h; decide
    · subst h; decide
    · subst h; decide
    · subst h; decide
    · subst h; exact hexDigitChar_ne_lt _ (by omega)
    · subst h; exact hexDigitChar_ne_lt _ (by omega)
  · simp only [List.mem_singleton] at hc2
    subst hc2
    exact hc

theorem natToStr_ne_lt (n : Nat) : ∀ c ∈ natToStr n, c ≠ '<' := by
  intro c hc he
  subst he
  have := natToStr_chars n '<' hc
  revert this
  decide

theorem intToStr_no_lt (i : Int) : ∀ c ∈ intToStr i, c ≠ '<' := by
  intro c hc
  unfold intToStr at hc
  split_ifs at hc
  · rcases List.mem_cons.mp hc with h | h
    · subst h; decide
    · exact natToStr_ne_lt _ c h
  · exact natToStr_ne_lt _ c hc

theorem joinSep_mem (sep : Str) :
    ∀ (items : List Str) (c : Char), c ∈ joinSep sep items →
      c ∈ sep ∨ ∃ x ∈ items, c ∈ x := by
  intro items
  induction items with
  | nil => intro c hc; simp [joinSep] at hc
  | cons x t ih =>
    intro c hc
    cases t with
    | nil =>
      right
      exact ⟨x, List.mem_cons_self _ _, hc⟩
    | cons y r =>
      have hj : joinSep sep (x :: y :: r) = x ++ sep ++ joinSep sep (y :: r) := rfl
      rw [hj] at hc
      rcases List.mem_append.mp hc with h | h
      · rcases List.mem_append.mp h with h | h
        · exact Or.inr ⟨x, List.mem_cons_self _ _, h⟩
        · exact Or.inl h
      · rcases ih c h with h | ⟨x2, hx2, hcx2⟩
        · exact Or.inl h
        · exact Or.inr ⟨x2, List.mem_cons_of_mem _ hx2, hcx2⟩

theorem encStr_no_lt (s : Str) (hs : ∀ c ∈ s, c ≠ '<') : ∀ c ∈ encStr s, c ≠ '<' := by
  intro c hc
  unfold encStr at hc
  rcases List.mem_append.mp hc with h | h
  · rcases List.mem_cons.mp h with h | h
    · subst h; decide
    · rw [List.mem_flatten] at h
      obtain ⟨l, hl, hcl⟩ := h
      rw [List.mem_map] at hl
      obtain ⟨c0, hc0, hl0⟩ := hl
      rw [← hl0] at hcl
      exact encChar_no_lt c0 (hs c0 hc0) c hcl
  · simp only [List.mem_singleton] at h
    subst h
    decide

theorem dumpsVal_no_lt (v : JVal) (hv : ∀ s, v = JVal.jstr s → ∀ c ∈ s, c ≠ '<') :
    ∀ c ∈ dumpsVal v, c ≠ '<' := by
  intro c hc
  cases v with
  | jstr s => exact encStr_no_lt s (hv s rfl) c hc
  | jint n => exact intToStr_no_lt n c hc
  | jbool b =>
    cases b with
    | true =>
      have hall : ∀ x ∈ ("true".toList : Str), x ≠ '<' := by decide
      exact hall c hc
    | false =>
      have hall : ∀ x ∈ ("false".toList : Str), x ≠ '<' := by decide
      exact hall c hc
  | jlist l =>
    have hc2 : c ∈ ('[' :: joinSep (", ".toList) (l.map intToStr)) ++ [']'] := hc
    rcases List.mem_append.mp hc2 with h | h
    · rcases List.mem_cons.mp h with h | h
      · subst h; decide
      · rcases joinSep_mem _ _ c h with h | ⟨x, hx, hcx⟩
        · have hall : ∀ y ∈ (", ".toList : Str), y ≠ '<' := by decide
          exact hall c h
        · rw [List.mem_map] at hx
          obtain ⟨i, _, hi⟩ := hx
          rw [← hi] at hcx
          exact intToStr_no_lt i c hcx
    · simp only [List.mem_singleton] at h
      subst h
      decide

theorem pairStr_no_lt (kv : Str × JVal) (hk : ∀ c ∈ kv.1, c ≠ '<')
    (hv : ∀ s, kv.2 = JVal.jstr s → ∀ c ∈ s, c ≠ '<') :
    ∀ c ∈ pairStr kv, c ≠ '<' := by
  intro c hc
  unfold pairStr at hc
  rcases List.mem_append.mp hc with h | h
  · exact encStr_no_lt kv.1 hk c h
  · rcases List.mem_cons.mp h with h | h
    · subst h; decide
    · rcases List.mem_cons.mp h with h | h
      · subst h; decide
      · exact dumpsVal_no_lt kv.2 hv c h

theorem dumpsObj_no_lt (kvs : List (Str × JVal))
    (hk : ∀ kv ∈ kvs, ∀ c ∈ kv.1, c ≠ '<')
    (hv : ∀ kv ∈ kvs, ∀ s, kv.2 = JVal.jstr s → ∀ c ∈ s, c ≠ '<') :
    ∀ c ∈ dumpsObj kvs, c ≠ '<' := by
  intro c hc
  unfold dumpsObj at hc
  rcases List.mem_append.mp hc with h | h
  · rcases List.mem_cons.mp h with h | h
    · subst h; decide
    · rcases joinSep_mem _ _ c h with h | ⟨x, hx, hcx⟩
      · have hall : ∀ y ∈ (", ".toList : Str), y ≠ '<' := by decide
        exact hall c h
      · rw [List.mem_map] at hx
        obtain ⟨kv, hkv, hxe⟩ := hx
        rw [← hxe] at hcx
        exact pairStr_no_lt kv (hk kv hkv) (hv kv hkv) c hcx
  · simp only [List.mem_singleton] at h
    subst h
    decide

theorem extensionData_key_mem (g : GenOpts) (kv : Str × JVal) (h : kv ∈ extensionData g) :
    kv.1 ∈ EXTENSION_KEYS ∨ kv.1 = "width".toList ∨ kv.1 = "height".toList := by
  have hbase : kv ∈ EXTENSION_KEYS.filterMap (fun k => (g k).map (fun v => (k, v))) →
      kv.1 ∈ EXTENSION_KEYS := by
    intro hb
    rw [List.mem_filterMap] at hb
    obtain ⟨a, ha, ha2⟩ := hb
    rw [Option.map_eq_some'] at ha2
    obtain ⟨v, _, hv2⟩ := ha2
    rw [← hv2]
    exact ha
  unfold extensionData at h
  split_ifs at h
  · exact Or.inl (hbase h)
  · rcases List.mem_append.mp h with h | h
    · exact Or.inl (hbase h)
    · simp only [List.mem_singleton] at h
      rw [h]
      exact Or.inr (Or.inl rfl)
  · rcases List.mem_append.mp h with h | h
    · exact Or.inl (hbase h)
    · simp only [List.mem_singleton] at h
      rw [h]
      exact Or.inr (Or.inr rfl)
  · exact Or.inl (hbase h)

theorem extension_keys_no_lt : ∀ k ∈ EXTENSION_KEYS, ∀ c ∈ k, c ≠ '<' := by decide

/-- Truthy when a string value contains no opening-angle character;
non-string values trivially qualify. -/
def valNoLt : JVal → Bool
  | .jstr s => s.all (fun c => c ≠ '<')
  | _ => true

/-- C3 (amended): for every generation-option set whose user prompt contains
no opening-angle character and whose string-valued extension options contain
no opening-angle character, building the wire payload and then parsing the
JSON object between the delimiter tags inside the prompt reproduces exactly
the encoded extension key/value list. -/
theorem claim_C3 (g : GenOpts) (u : UtilOpts)
    (hp : (pyStr ((g ("prompt".toList)).getD (JVal.jstr []))).all (fun c => c ≠ '<') = true)
    (hv : ∀ kv ∈ extensionData g, valNoLt kv.2 = true) :
    parseExt (build_openai_payload g u).prompt = some (extensionData g) := by
  have hp2 : ∀ c ∈ pyStr ((g ("prompt".toList)).getD (JVal.jstr [])), c ≠ '<' := by
    intro c hc
    have := List.all_eq_true.mp hp c hc
    simpa using this
  have hv2 : ∀ kv ∈ extensionData g, ∀ s, kv.2 = JVal.jstr s → ∀ c ∈ s, c ≠ '<' := by
    intro kv hkv s hs c hc
    have := hv kv hkv
    rw [hs] at this
    unfold valNoLt at this
    have := List.all_eq_true.mp this c hc
    simpa using this
  have hJ : ∀ c ∈ dumpsObj (extensionData g), c ≠ '<' := by
    apply dumpsObj_no_lt
    · intro kv hkv c hc
      rcases extensionData_key_mem g kv hkv with h | h | h
      · exact extension_keys_no_lt kv.1 h c hc
      · rw [h] at hc
        have hall : ∀ x ∈ ("width".toList : Str), x ≠ '<' := by decide
        exact hall c hc
      · rw [h] at hc
        have hall : ∀ x ∈ ("height".toList : Str), x ≠ '<' := by decide
        exact hall c hc
    · exact hv2
  have hprompt_eq : (build_openai_payload g u).prompt =
      pyStr ((g ("prompt".toList)).getD (JVal.jstr [])) ++ openTag ++
        dumpsObj (extensionData g) ++ closeTag := rfl
  rw [hprompt_eq, List.append_assoc, List.append_assoc]
  unfold parseExt
  rw [findSub_exact openTag _ _ rfl hp2]
  simp only [Option.some_bind]
  rw [show dumpsObj (extensionData g) ++ closeTag =
    dumpsObj (extensionData g) ++ (closeTag ++ []) from by rw [List.append_nil]]
  rw [findSub_exact closeTag _ _ rfl hJ]
  simp only [Option.some_bind]
  have hobj := pObjTop_rt (extensionData g) []
  rw [List.append_nil] at hobj
  rw [hobj]
  rfl

/-- A generation-option map supplying only a seed. -/
def gSeed : GenOpts := fun k => if k = "seed".toList then some (JVal.jint 42) else none

theorem claim_C3_witness :
    parseExt (build_openai_payload gSeed u0).prompt =
      some [(("seed".toList : Str), JVal.jint 42)] := by
  have h := claim_C3 gSeed u0 (by decide) (by decide)
  rw [h]
  decide

/-- A generation-option map whose prompt itself contains the delimiter
tags. -/
def gBadPrompt : GenOpts := fun k =>
  if k = "prompt".toList
    then some (JVal.jstr (("<sd_cpp_extra_args>boom</sd_cpp_extra_args>").toList))
    else none

/-- C3, counterexample to the claim as stated: when the user prompt itself
contains the delimiter tags, the text between the opening tag and the first
closing tag of the built prompt is not the encoded JSON object, so the
round trip fails to reproduce the (empty) extension set. -/
theorem claim_C3_counterexample :
    extensionData gBadPrompt = [] ∧
    parseExt (build_openai_payload gBadPrompt u0).prompt = none ∧
    (none : Option (List (Str × JVal))) ≠ some ([] : List (Str × JVal)) := by
  refine ⟨by decide, by decide, by decide⟩

/-- JSON values of a server response body.  Integer numbers carry their
value; non-integer numbers (fraction or exponent present) and the NaN and
Infinity constants are carried as their literal token text, since no claim
computes with their numeric value. -/
inductive JsonV where
  | jnull
  | jbool (b : Bool)
  | jnum (n : Int)
  | jfloat (tok : Str)
  | jstr (s : Str)
  | jarr (l : List JsonV)
  | jobj (kvs : List (Str × JsonV))

/-- JSON whitespace accepted between tokens. -/
def isJsonWs (c : Char) : Bool := c = ' ' || c.toNat = 9 || c.toNat = 10 || c.toNat = 13

def skipWs (s : Str) : Str := s.dropWhile isJsonWs

/-- Parser for the body of a JSON string literal in the strict mode of
`json.loads`: like `pStrBody` but raw control characters (code points below
32) are rejected. -/
def pStrBodyJ : Str → Option (Str × Str)
  | [] => none
  | c :: rest =>
    if c = '"' then some ([], rest)
    else if c = '\\' then
      match rest with
      | [] => none
      | e :: rest2 =>
        if e = 'u' then
          match rest2 with
          | h1 :: h2 :: h3 :: h4 :: rest3 =>
            (pHex4 h1 h2 h3 h4).bind (fun n =>
              (pStrBodyJ rest3).map (fun r => (Char.ofNat n :: r.1, r.2)))
          | _ => none
        else
          (unescChar e).bind (fun c2 => (pStrBodyJ rest2).map (fun r => (c2 :: r.1, r.2)))
    else if c.toNat < 32 then none
    else (pStrBodyJ rest).map (fun r => (c :: r.1, r.2))

/-- Fraction part of a JSON number: a dot followed by one or more digits,
or nothing.  Returns the consumed text and the remainder. -/
def pFrac (s : Str) : Option (Str × Str) :=
  if s.head? = some '.' then
    let ds := s.tail.takeWhile isDigitChar
    if ds = [] then none else some ('.' :: ds, s.tail.dropWhile isDigitChar)
  else some ([], s)

/-- Exponent part of a JSON number: e or E, an optional sign, and one or
more digits, or nothing.  Returns the consumed text and the remainder. -/
def pExp (s : Str) : Option (Str × Str) :=
  if s.head? = some 'e' ∨ s.head? = some 'E' then
    let e := (s.head?).getD 'e'
    let s1 := s.tail
    if s1.head? = some '+' ∨ s1.head? = some '-' then
      let sgn := (s1.head?).getD '+'
      let ds := s1.tail.takeWhile isDigitChar
      if ds = [] then none else some (e :: sgn :: ds, s1.tail.dropWhile isDigitChar)
    else
      let ds := s1.takeWhile isDigitChar
      if ds = [] then none else some (e :: ds, s1.dropWhile isDigitChar)
  else some ([], s)

/-- JSON number token of `json.loads`: an optional minus, an integer part
without leading zeros, optional fraction and exponent, plus the NaN,
Infinity and -Infinity constants accepted by the default parser.  A token
with fraction or exponent, or a constant, parses as a float, otherwise as
an int. -/
def pJNum (s : Str) : Option (JsonV × Str) :=
  if s.head? = some '-' ∧ s.tail.head? = some 'I' then
    (pLit ("-Infinity".toList) s).map (fun r => (JsonV.jfloat ("-Infinity".toList), r))
  else
    let s1 := if s.head? = some '-' then s.tail else s
    let ip := s1.takeWhile isDigitChar
    if ip = [] then none
    else if ip.head? = some '0' ∧ ip.length ≠ 1 then none
    else
      (pFrac (s1.dropWhile isDigitChar)).bind (fun fr =>
        (pExp fr.2).bind (fun ex =>
          if fr.1 = [] ∧ ex.1 = [] then
            some (JsonV.jnum (if s.head? = some '-' then -(strVal ip : Int)
              else (strVal ip : Int)), ex.2)
          else
            some (JsonV.jfloat ((if s.head? = some '-' then ['-'] else []) ++
              ip ++ fr.1 ++ ex.1), ex.2)))

/-- Parsing mode of the fueled JSON parser: a single value, the items of a
non-empty array (closing bracket included), or the members of a non-empty
object (closing brace included). -/
inductive JPMode where
  | val
  | arrItems
  | objItems

/-- Fueled recursive-descent parser for response JSON, modelling
`json.loads`.  Array and object results are wrapped as values so the three
modes share one result type. -/
def jp : Nat → JPMode → Str → Option (JsonV × Str)
  | 0, _, _ => none
  | fuel + 1, .val, s =>
    let s1 := skipWs s
    if s1.head? = some '{' then
      let s2 := skipWs s1.tail
      if s2.head? = some '}' then some (.jobj [], s2.tail)
      else jp fuel .objItems s2
    else if s1.head? = some '[' then
      let s2 := skipWs s1.tail
      if s2.head? = some ']' then some (.jarr [], s2.tail)
      else jp fuel .arrItems s2
    else if s1.head? = some '"' then
      (pStrBodyJ s1.tail).map (fun r => (JsonV.jstr r.1, r.2))
    else if s1.head? = some 't' then
      (pLit ("true".toList) s1).map (fun r => (JsonV.jbool true, r))
    else if s1.head? = some 'f' then
      (pLit ("false".toList) s1).map (fun r => (JsonV.jbool false, r))
    else if s1.head? = some 'n' then
      (pLit ("null".toList) s1).map (fun r => (JsonV.jnull, r))
    else if s1.head? = some 'N' then
      (pLit ("NaN".toList) s1).map (fun r => (JsonV.jfloat ("NaN".toList), r))
    else if s1.head? = some 'I' then
      (pLit ("Infinity".toList) s1).map (fun r => (JsonV.jfloat ("Infinity".toList), r))
    else
      pJNum s1
  | fuel + 1, .arrItems, s =>
    (jp fuel .val s).bind (fun vr =>
      let r := skipWs vr.2
      if r.head? = some ']' then some (.jarr [vr.1], r.tail)
      else if r.head? = some ',' then
        (jp fuel .arrItems r.tail).bind (fun q =>
          match q.1 with
          | .jarr items => some (.jarr (vr.1 :: items), q.2)
          | _ => none)
      else none)
  | fuel + 1, .objItems, s =>
    let s1 := skipWs s
    if s1.head? = some '"' then
      (pStrBodyJ s1.tail).bind (fun kr =>
        let r1 := skipWs kr.2
        if r1.head? = some ':' then
          (jp fuel .val r1.tail).bind (fun vr =>
            let r2 := skipWs vr.2
            if r2.head? = some '}' then some (.jobj [(kr.1, vr.1)], r2.tail)
            else if r2.head? = some ',' then
              (jp fuel .objItems r2.tail).bind (fun q =>
                match q.1 with
                | .jobj kvs => some (.jobj ((kr.1, vr.1) :: kvs), q.2)
                | _ => none)
            else none)
        else none)
    else none

/-- Model of `json.loads` on the full body: a single value with only
whitespace around it. -/
def jsonParse (s : Str) : Option JsonV :=
  (jp (2 * s.length + 2) .val s).bind (fun vr =>
    if skipWs vr.2 = [] then some vr.1 else none)

example : jsonParse ("1.5".toList) = some (.jfloat ("1.5".toList)) := by rfl
example : jsonParse ("-2e10".toList) = some (.jfloat ("-2e10".toList)) := by rfl
example : jsonParse ("0".toList) = some (.jnum 0) := by rfl
example : jsonParse ("-12".toList) = some (.jnum (-12)) := by rfl
example : jsonParse ("05".toList) = none := by rfl
example : jsonParse ("5.".toList) = none := by rfl
example : jsonParse ("1e".toList) = none := by rfl
example : jsonParse ("NaN".toList) = some (.jfloat ("NaN".toList)) := by rfl
example : jsonParse ("Infinity".toList) = some (.jfloat ("Infinity".toList)) := by rfl
example : jsonParse ("-Infinity".toList) = some (.jfloat ("-Infinity".toList)) := by rfl
example : jsonParse ['"', Char.ofNat 9, '"'] = none := by rfl
example : jsonParse ['"', '\\', 't', '"'] = some (.jstr [Char.ofNat 9]) := by rfl

/-- The distinct `ValueError` messages decode_openai_response can raise. -/
inductive VKind where
  | invalidJson
  | noDataKey
  | noImageData (i : Nat)
  | badEncoding (i : Nat)
  | nonAscii
deriving DecidableEq

/-- Kinds of Python exceptions escaping `decode_openai_response`. -/
inductive PyError where
  | valueError (k : VKind)
  | typeError
  | attributeError
deriving DecidableEq

/-- Python falsiness of a JSON value.  A float token is falsy exactly when
its numeric value is zero: it has digits and every digit of its mantissa
(the part before any exponent) is zero; NaN and Infinity have no digits and
are truthy. -/
def pyFalsyJ : JsonV → Bool
  | .jnull => true
  | .jbool b => !b
  | .jnum n => n == 0
  | .jfloat tok =>
    let m := tok.takeWhile (fun c => c ≠ 'e' ∧ c ≠ 'E')
    m.any isDigitChar && m.all (fun c => !(isDigitChar c) || c = '0')
  | .jstr s => s.isEmpty
  | .jarr l => l.isEmpty
  | .jobj kvs => kvs.isEmpty

example : pyFalsyJ (.jfloat ("0.0".toList)) = true := by decide
example : pyFalsyJ (.jfloat ("-0.0e7".toList)) = true := by decide
example : pyFalsyJ (.jfloat ("1.5".toList)) = false := by decide
example : pyFalsyJ (.jfloat ("NaN".toList)) = false := by decide
example : pyFalsyJ (.jfloat ("Infinity".toList)) = false := by decide

/-- Lookup in a JSON object as a Python dict built by `json.loads`: the last
binding of a duplicated key wins. -/
def dictGet (k : Str) (kvs : List (Str × JsonV)) : Option JsonV :=
  (kvs.reverse.find? (fun kv => kv.1 = k)).map Prod.snd

/-- Python equality of a JSON value with the string literal checked by the
`in` test. -/
def isDataStr : JsonV → Bool
  | .jstr s => s = "data".toList
  | _ => false

def isB64Char (c : Char) : Bool :=
  (65 ≤ c.toNat && c.toNat ≤ 90) || (97 ≤ c.toNat && c.toNat ≤ 122) ||
    (48 ≤ c.toNat && c.toNat ≤ 57) || c = '+' || c = '/'

def b64Val (c : Char) : Nat :=
  if 65 ≤ c.toNat ∧ c.toNat ≤ 90 then c.toNat - 65
  else if 97 ≤ c.toNat ∧ c.toNat ≤ 122 then c.toNat - 71
  else if 48 ≤ c.toNat ∧ c.toNat ≤ 57 then c.toNat + 4
  else if c = '+' then 62 else 63

/-- Core scan of non-strict `binascii.a2b_base64`, one state step per input
character.  The state is the position inside the current sextet quad
(`qp`, 0 to 3), the bits left over from the previous sextet (`lc`), the
count of padding characters seen in the current quad (`pads`), and the
output bytes accumulated in reverse.  A character outside the alphabet is
discarded without touching the state.  A padding character increments
`pads` only when at least two sextets of the quad have been read, and
decoding ends successfully once `qp + pads` reaches 4; an earlier padding
character is skipped and a later data character resets `pads`.  A data
character emits a byte whenever it completes 8 bits: at `qp = 1` the byte
`4 * lc + v / 16`, at `qp = 2` the byte `16 * lc + v / 4`, at `qp = 3` the
byte `64 * lc + v`.  Input exhausted mid-quad (`qp ≠ 0`) is an error. -/
def b64core : Str → Nat → Nat → Nat → List Nat → Option (List Nat)
  | [], qp, _, _, acc => if qp = 0 then some acc.reverse else none
  | c :: rest, qp, lc, pads, acc =>
    if c = '=' then
      if 2 ≤ qp ∧ 4 ≤ qp + (pads + 1) then some acc.reverse
      else if 2 ≤ qp then b64core rest qp lc (pads + 1) acc
      else b64core rest qp lc pads acc
    else if isB64Char c then
      let v := b64Val c
      match qp with
      | 0 => b64core rest 1 v 0 acc
      | 1 => b64core rest 2 (v % 16) 0 ((4 * lc + v / 16) :: acc)
      | 2 => b64core rest 3 (v % 4) 0 ((16 * lc + v / 4) :: acc)
      | _ => b64core rest 0 0 0 ((64 * lc + v) :: acc)
    else b64core rest qp lc pads acc

/-- Model of Python `base64.b64decode` with default non-strict validation:
the `b64core` scan from the initial state. -/
def b64decodePy (s : Str) : Option (List Nat) :=
  b64core s 0 0 0 []

def isAsciiStr (s : Str) : Bool := s.all (fun c => c.toNat < 128)

/-- Decoding of one image record, modelling one iteration of the loop of
`decode_openai_response` (client.py lines 170-177): a non-object record
fails the `.get` attribute access; a missing or falsy value is the
missing-image-data ValueError; a truthy non-string is the TypeError of
`b64decode`; a non-ASCII string is the ASCII ValueError; an undecodable
string is the bad-encoding ValueError naming the record index. -/
def decodeRecord (i : Nat) (r : JsonV) : Except PyError (List Nat) :=
  match r with
  | .jobj kvs =>
    match dictGet ("b64_json".toList) kvs with
    | none => .error (.valueError (.noImageData i))
    | some v =>
      if pyFalsyJ v then .error (.valueError (.noImageData i))
      else
        match v with
        | .jstr s =>
          if isAsciiStr s then
            match b64decodePy s with
            | some bs => .ok bs
            | none => .error (.valueError (.badEncoding i))
          else .error (.valueError .nonAscii)
        | _ => .error .typeError
  | _ => .error .attributeError

/-- Sequential decoding of the records, first failure aborting the whole
decode. -/
def decodeRecords : Nat → List JsonV → Except PyError (List (List Nat))
  | _, [] => .ok []
  | i, r :: rest =>
    (decodeRecord i r).bind (fun bs =>
      (decodeRecords (i + 1) rest).map (fun out => bs :: out))

/-- Decoding of the parsed response body, modelling client.py lines
164-179 including the Python semantics of `'data' not in data`,
`data['data']` and iteration for each top-level value shape. -/
def decodeTop (v : JsonV) : Except PyError (List (List Nat)) :=
  match v with
  | .jobj kvs =>
    match dictGet ("data".toList) kvs with
    | none => .error (.valueError .noDataKey)
    | some images =>
      match images with
      | .jarr l => decodeRecords 0 l
      | .jobj kvs2 => if kvs2.isEmpty then .ok [] else .error .attributeError
      | .jstr s => if s.isEmpty then .ok [] else .error .attributeError
      | _ => .error .typeError
  | .jarr l => if l.any isDataStr then .error .typeError else .error (.valueError .noDataKey)
  | .jstr s =>
    if (findSub ("data".toList) s).isSome then .error .typeError
    else .error (.valueError .noDataKey)
  | _ => .error .typeError

/-- Model of `decode_openai_response` (client.py lines 158-179). -/
def decode_openai_response (body : Str) : Except PyError (List (List Nat)) :=
  match jsonParse body with
  | none => .error (.valueError .invalidJson)
  | some v => decodeTop v

/-- The response body carrying one record with the base64 text of hello. -/
def bodyHello : Str :=
  ('{' :: '"' :: ("data".toList)) ++ ('"' :: ':' :: '[' :: '{' :: '"' :: ("b64_json".toList)) ++
    ('"' :: ':' :: '"' :: ("aGVsbG8=".toList)) ++ ['"', '}', ']', '}']

/-- The response body carrying one record with three exclamation marks. -/
def bodyBang : Str :=
  ('{' :: '"' :: ("data".toList)) ++ ('"' :: ':' :: '[' :: '{' :: '"' :: ("b64_json".toList)) ++
    ('"' :: ':' :: '"' :: ("!!!".toList)) ++ ['"', '}', ']', '}']

example : b64decodePy ("aGVsbG8=".toList) = some [104, 101, 108, 108, 111] := by decide
example : b64decodePy ("!!!".toList) = some [] := by decide
example : b64decodePy ("a".toList) = none := by decide
example : b64decodePy ("ab".toList) = none := by decide
example : b64decodePy ("ab=".toList) = none := by decide
example : b64decodePy ("ab==".toList) = some [105] := by decide
example : b64decodePy ("ab=cd".toList) = some [105, 183, 29] := by decide
example : b64decodePy ("ab=c=".toList) = some [105, 183] := by decide
example : decode_openai_response bodyHello = .ok [[104, 101, 108, 108, 111]] := by rfl
example : decode_openai_response bodyBang = .ok [[]] := by rfl

theorem decodeRecord_bad (i : Nat) (kvs : List (Str × JsonV)) (s : Str)
    (h1 : dictGet ("b64_json".toList) kvs = some (.jstr s)) (h2 : s ≠ [])
    (h3 : isAsciiStr s = true) (h4 : b64decodePy s = none) :
    decodeRecord i (.jobj kvs) = .error (.valueError (.badEncoding i)) := by
  unfold decodeRecord
  dsimp only
  rw [h1]
  have hfal : pyFalsyJ (.jstr s) = false := by
    unfold pyFalsyJ
    simpa using h2
  simp [hfal, h3, h4]

theorem decodeRecords_cons (i : Nat) (r : JsonV) (rest : List JsonV) :
    decodeRecords i (r :: rest) = (decodeRecord i r).bind (fun bs =>
      (decodeRecords (i + 1) rest).map (fun out => bs :: out)) := rfl

theorem decodeRecords_append_bad :
    ∀ (pre : List JsonV) (start : Nat) (rec : JsonV) (post : List JsonV),
    (∀ r ∈ pre, ∃ b, ∀ j, decodeRecord j r = Except.ok b) →
    (∀ j, decodeRecord j rec = .error (.valueError (.badEncoding j))) →
    decodeRecords start (pre ++ rec :: post) =
      .error (.valueError (.badEncoding (start + pre.length))) := by
  intro pre
  induction pre with
  | nil =>
    intro start rec post _ hrec
    rw [List.nil_append, decodeRecords_cons, hrec start]
    rfl
  | cons r rs ih =>
    intro start rec post hpre hrec
    obtain ⟨b, hb⟩ := hpre r (List.mem_cons_self _ _)
    rw [List.cons_append, decodeRecords_cons, hb start,
      ih (start + 1) rec post (fun x hx => hpre x (List.mem_cons_of_mem _ hx)) hrec]
    have harith : start + 1 + rs.length = start + (rs.length + 1) := by omega
    simp only [List.length_cons, Except.bind, Except.map, harith]

/-- The response body carrying one record with a single base64 character. -/
def bodyShort : Str :=
  ('{' :: '"' :: ("data".toList)) ++ ('"' :: ':' :: '[' :: '{' :: '"' :: ("b64_json".toList)) ++
    ('"' :: ':' :: '"' :: ("a".toList)) ++ ['"', '}', ']', '}']

/-- The well-formed base64 payload of a record: present, a string, truthy
and ASCII. -/
def recB64 (r : JsonV) : Option Str :=
  match r with
  | .jobj rk =>
    match dictGet ("b64_json".toList) rk with
    | some (.jstr s) => if s ≠ [] ∧ isAsciiStr s = true then some s else none
    | _ => none
  | _ => none

theorem decodeRecord_ok_of_recB64 (i : Nat) (r : JsonV) (s : Str) (b : List Nat)
    (h : recB64 r = some s) (hb : b64decodePy s = some b) :
    decodeRecord i r = .ok b := by
  unfold recB64 at h
  cases r with
  | jobj rk =>
    dsimp only at h
    cases hd : dictGet ("b64_json".toList) rk with
    | none => rw [hd] at h; exact absurd h (by simp)
    | some v =>
      rw [hd] at h
      cases v with
      | jstr s2 =>
        dsimp only at h
        by_cases hc : s2 ≠ [] ∧ isAsciiStr s2 = true
        · rw [if_pos hc] at h
          rw [Option.some_inj] at h
          subst h
          unfold decodeRecord
          dsimp only
          rw [hd]
          have hfal : pyFalsyJ (.jstr s2) = false := by
            unfold pyFalsyJ
            simpa using hc.1
          simp [hfal, hc.2, hb]
        · rw [if_neg hc] at h
          exact absurd h (by simp)
      | jnull => exact absurd h (by simp)
      | jbool b2 => exact absurd h (by simp)
      | jnum n => exact absurd h (by simp)
      | jfloat t => exact absurd h (by simp)
      | jarr l => exact absurd h (by simp)
      | jobj kvs2 => exact absurd h (by simp)
  | jnull => exact absurd h (by simp)
  | jbool b2 => exact absurd h (by simp)
  | jnum n => exact absurd h (by simp)
  | jfloat t => exact absurd h (by simp)
  | jstr s2 => exact absurd h (by simp)
  | jarr l => exact absurd h (by simp)

theorem decodeRecords_ok : ∀ (recs : List JsonV) (ss : List Str)
    (out : List (List Nat)) (start : Nat),
    recs.mapM recB64 = some ss → ss.mapM b64decodePy = some out →
    decodeRecords start recs = .ok out := by
  intro recs
  induction recs with
  | nil =>
    intro ss out start hss hout
    simp only [List.mapM_nil, Option.pure_def, Option.some_inj] at hss
    subst hss
    simp only [List.mapM_nil, Option.pure_def, Option.some_inj] at hout
    subst hout
    rfl
  | cons r rs ih =>
    intro ss out start hss hout
    rw [List.mapM_cons] at hss
    simp only [Option.bind_eq_bind, Option.bind_eq_some, Option.pure_def, Option.some_inj] at hss
    obtain ⟨s0, hs0, ss2, hss2, hsse⟩ := hss
    subst hsse
    rw [List.mapM_cons] at hout
    simp only [Option.bind_eq_bind, Option.bind_eq_some, Option.pure_def, Option.some_inj] at hout
    obtain ⟨b0, hb0, out2, hout2, houte⟩ := hout
    subst houte
    rw [decodeRecords_cons, decodeRecord_ok_of_recB64 start r s0 b0 hs0 hb0,
      ih ss2 out2 (start + 1) hss2 hout2]
    rfl

theorem decodeRecord_guarded (i : Nat) (r : JsonV)
    (h : ∃ rk, r = JsonV.jobj rk ∧ ∀ v, dictGet ("b64_json".toList) rk = some v →
      pyFalsyJ v = true ∨ ∃ s, v = JsonV.jstr s) :
    (∃ b, decodeRecord i r = .ok b) ∨ (∃ k, decodeRecord i r = .error (.valueError k)) := by
  obtain ⟨rk, hr, hv⟩ := h
  subst hr
  unfold decodeRecord
  dsimp only
  cases hd : dictGet ("b64_json".toList) rk with
  | none => exact Or.inr ⟨.noImageData i, rfl⟩
  | some v =>
    dsimp only
    rcases hv v hd with hfal | ⟨s, hs⟩
    · rw [if_pos hfal]
      exact Or.inr ⟨.noImageData i, rfl⟩
    · subst hs
      by_cases hfal : pyFalsyJ (.jstr s) = true
      · rw [if_pos hfal]
        exact Or.inr ⟨.noImageData i, rfl⟩
      · rw [if_neg hfal]
        dsimp only
        by_cases ha : isAsciiStr s = true
        · rw [if_pos ha]
          cases hb : b64decodePy s with
          | some bs => exact Or.inl ⟨bs, rfl⟩
          | none => exact Or.inr ⟨.badEncoding i, rfl⟩
        · rw [if_neg ha]
          exact Or.inr ⟨.nonAscii, rfl⟩

theorem decodeRecords_guarded : ∀ (recs : List JsonV) (start : Nat),
    (∀ r ∈ recs, ∃ rk, r = JsonV.jobj rk ∧ ∀ v, dictGet ("b64_json".toList) rk = some v →
      pyFalsyJ v = true ∨ ∃ s, v = JsonV.jstr s) →
    (∃ out, decodeRecords start recs = .ok out ∧ out.length = recs.length) ∨
    (∃ k, decodeRecords start recs = .error (.valueError k)) := by
  intro recs
  induction recs with
  | nil => intro start _; exact Or.inl ⟨[], rfl, rfl⟩
  | cons r rs ih =>
    intro start h
    rcases decodeRecord_guarded start r (h r (List.mem_cons_self _ _)) with ⟨b, hb⟩ | ⟨k, hk⟩
    · rcases ih (start + 1) (fun x hx => h x (List.mem_cons_of_mem _ hx)) with
        ⟨out, ho, hl⟩ | ⟨k, hk⟩
      · exact Or.inl ⟨b :: out, by rw [decodeRecords_cons, hb, ho]; rfl, by simp [hl]⟩
      · exact Or.inr ⟨k, by rw [decodeRecords_cons, hb, hk]; rfl⟩
    · exact Or.inr ⟨k, by rw [decodeRecords_cons, hk]; rfl⟩

/-- C8 (amended): for every response body, malformed JSON and a missing
data key fail with the corresponding `ValueError`; and when the top-level
value is an object whose data member is an array of records that are
objects whose `b64_json` member, if present, is falsy or a string, the
decoder either returns exactly one buffer per record or fails with a
`ValueError`, never any other kind of error and never a partial result.
Outside this shape the code can raise `TypeError` or `AttributeError`
instead. -/
theorem claim_C8 (body : Str) :
    (jsonParse body = none →
      decode_openai_response body = .error (.valueError .invalidJson)) ∧
    (∀ kvs, jsonParse body = some (JsonV.jobj kvs) →
      (dictGet ("data".toList) kvs = none →
        decode_openai_response body = .error (.valueError .noDataKey)) ∧
      (∀ recs, dictGet ("data".toList) kvs = some (.jarr recs) →
        (∀ r ∈ recs, ∃ rk, r = JsonV.jobj rk ∧
          (∀ v, dictGet ("b64_json".toList) rk = some v →
            pyFalsyJ v = true ∨ ∃ s, v = JsonV.jstr s)) →
        (∃ out, decode_openai_response body = .ok out ∧ out.length = recs.length) ∨
        (∃ k, decode_openai_response body = .error (.valueError k)))) := by
  refine ⟨?_, ?_⟩
  · intro hnone
    unfold decode_openai_response
    rw [hnone]
  · intro kvs hparse
    refine ⟨?_, ?_⟩
    · intro hnokey
      unfold decode_openai_response
      rw [hparse]
      show decodeTop (.jobj kvs) = _
      unfold decodeTop
      dsimp only
      rw [hnokey]
    · intro recs hdata hguard
      have hdec : decode_openai_response body = decodeRecords 0 recs := by
        unfold decode_openai_response
        rw [hparse]
        show decodeTop (.jobj kvs) = _
        unfold decodeTop
        dsimp only
        rw [hdata]
      rw [hdec]
      exact decodeRecords_guarded recs 0 hguard

/-- The response body whose data member is an empty array. -/
def bodyEmptyArr : Str := ('{' :: '"' :: ("data".toList)) ++ ['"', ':', '[', ']', '}']

theorem claim_C8_witness :
    (∃ out, decode_openai_response bodyEmptyArr = .ok out ∧
      out.length = ([] : List JsonV).length) ∨
    (∃ k, decode_openai_response bodyEmptyArr = .error (.valueError k)) := by
  exact ((claim_C8 bodyEmptyArr).2 [(("data".toList : Str), JsonV.jarr [])] (by rfl)).2
    [] (by rfl) (fun r hr => absurd hr (List.not_mem_nil r))

/-- The response body whose single record is the number zero. -/
def bodyNumRec : Str := ('{' :: '"' :: ("data".toList)) ++ ['"', ':', '[', '0', ']', '}']

/-- C8, counterexample to the claim as stated: a record that is not an
image-record object is listed by the claim as a defect that must raise a
DecodeError, but `img_data.get` on the integer record raises an
AttributeError, which is not a ValueError. -/
theorem claim_C8_counterexample :
    decode_openai_response bodyNumRec = .error .attributeError ∧
    (∀ k, (Except.error PyError.attributeError : Except PyError (List (List Nat))) ≠
      .error (.valueError k)) := by
  refine ⟨by rfl, ?_⟩
  intro k h
  rw [Except.error.injEq] at h
  exact PyError.noConfusion h
